import Mathlib

/-!
Verification of the memori-typescript Memory Retrieval & Curation Engine
against its natural-language specification.

The development shallowly embeds two source units:

* `src/core/infrastructure/database/utils/id-generator.ts` (class `IdGenerator`)
* the current revision of
  `src/core/domain/search/filtering/CategoryMetadataExtractor.ts`
  (class `CategoryMetadataExtractor` and its helpers)

JavaScript numbers are modelled as rationals, JS `Map` as an
insertion-ordered association list, and the JS regular-expression engine as
an abstract oracle (a function from pattern source, flags, text and start
position to an optional match), which the termination theorems quantify
over adversarially.  Nondeterministic environment inputs (`Date.now()`,
`uuidv4()`, wall-clock timeout probes) are passed as explicit parameters.
-/

set_option maxRecDepth 8000

namespace Memori

/-! ## JavaScript string primitives -/

/-- JS whitespace test covering the ASCII whitespace characters used by
`String.prototype.trim`, the `\s` regex class and `parseInt` skipping. -/
def isJsSpace (c : Char) : Bool :=
  c = ' ' || c = '\t' || c = '\n' || c = '\r' || c = '\x0b' || c = '\x0c'

/-- Split a character list at every occurrence of `sep`, keeping empty
segments, as JS `String.prototype.split` does for a one-character
separator. The result is always non-empty. -/
def splitChar (sep : Char) : List Char → List (List Char)
  | [] => [[]]
  | c :: cs =>
    match splitChar sep cs with
    | [] => [[]]
    | g :: gs => if c = sep then [] :: g :: gs else (c :: g) :: gs

/-- JS `id.split(sep)` for a single-character separator. -/
def jsSplit (sep : Char) (s : String) : List String :=
  (splitChar sep s.toList).map String.mk

/-- Decimal digit character for a value below ten. -/
def decDigit (n : Nat) : Char := Char.ofNat (48 + n)

/-- Fuelled core of the decimal printer for natural numbers. -/
def natToDecimalAux : Nat → Nat → List Char
  | 0, _ => []
  | _fuel + 1, n =>
    if n < 10 then [decDigit n]
    else natToDecimalAux _fuel (n / 10) ++ [decDigit (n % 10)]

/-- Decimal rendering of a natural number, as JS template interpolation
renders an integral `Date.now()` value. -/
def natToDecimal (n : Nat) : List Char := natToDecimalAux (n + 1) n

/-- Numeric value of a list of decimal digit characters. -/
def decValue (l : List Char) : Nat :=
  l.foldl (fun acc c => 10 * acc + (c.toNat - 48)) 0

/-- JS `parseInt(s, 10)`: skip leading whitespace, read an optional sign,
then the maximal run of leading decimal digits; `NaN` (here `none`) when
that run is empty. -/
def jsParseInt (s : String) : Option Int :=
  let l := s.toList.dropWhile isJsSpace
  let sign : Int := if l.head? = some '-' then -1 else 1
  let rest := if l.head? = some '-' || l.head? = some '+' then l.tail else l
  let ds := rest.takeWhile Char.isDigit
  if ds.isEmpty then none else some (sign * (decValue ds : Int))

/-! ## IdGenerator (id-generator.ts) -/

/-- Hexadecimal digit test, case-insensitive as the `i` regex flag makes
the `[0-9a-f]` classes of `isValidUUID`. -/
def isHexChar (c : Char) : Bool :=
  c.isDigit || ('a' ≤ c && c ≤ 'f') || ('A' ≤ c && c ≤ 'F')

/-- Version nibble class `[1-5]` of the UUID regex. -/
def isUuidVersionChar (c : Char) : Bool := '1' ≤ c && c ≤ '5'

/-- Variant nibble class `[89ab]` of the UUID regex, case-insensitive. -/
def isUuidVariantChar (c : Char) : Bool :=
  c = '8' || c = '9' || c = 'a' || c = 'b' || c = 'A' || c = 'B'

/-- Literal hyphen class of the UUID regex. -/
def isDashChar (c : Char) : Bool := c = '-'

/-- Character-by-character shape of the regex
`[0-9a-f]{8}-[0-9a-f]{4}-[1-5][0-9a-f]{3}-[89ab][0-9a-f]{3}-[0-9a-f]{12}`. -/
def uuidShape : List (Char → Bool) :=
  List.replicate 8 isHexChar ++ [isDashChar] ++
  List.replicate 4 isHexChar ++ [isDashChar] ++
  [isUuidVersionChar] ++ List.replicate 3 isHexChar ++ [isDashChar] ++
  [isUuidVariantChar] ++ List.replicate 3 isHexChar ++ [isDashChar] ++
  List.replicate 12 isHexChar

/-- A list of characters matches a list of character classes positionally,
with matching lengths (the regex is anchored on both sides). -/
def matchesShape : List (Char → Bool) → List Char → Bool
  | [], [] => true
  | p :: ps, c :: cs => p c && matchesShape ps cs
  | _, _ => false

/-- IdGenerator.isValidUUID: anchored case-insensitive test against the
UUID v1-v5 shape. -/
def isValidUUID (s : String) : Bool := matchesShape uuidShape s.toList

/-- IdGenerator.generateId: returns a fresh `uuidv4()`, modelled as an
explicit parameter. -/
def generateId (uuid : String) : String := uuid

/-- IdGenerator.generatePrefixedId: the string
`prefix + "_" + Date.now() + "_" + uuidv4()`, with the clock value and
the fresh UUID passed explicitly. -/
def generatePrefixedId (pfx : String) (now : Nat) (uuid : String) : String :=
  pfx ++ "_" ++ String.mk (natToDecimal now) ++ "_" ++ uuid

/-- Record kinds accepted by IdGenerator.generateRecordId. -/
inductive RecordType where
  | chat
  | embedding
  deriving DecidableEq

/-- IdGenerator.generateRecordId: prefixes `chat_record` or
`embedding_record` depending on the record type. -/
def generateRecordId (t : RecordType) (now : Nat) (uuid : String) : String :=
  let pfx := match t with
    | RecordType.chat => "chat_record"
    | RecordType.embedding => "embedding_record"
  generatePrefixedId pfx now uuid

/-- IdGenerator.extractTimestampFromId: split on underscores; accept only
the shapes `prefix_timestamp_uuid` (three parts ending in a UUID) and
`timestamp_uuid` (two parts ending in a UUID); parse the timestamp part
in base 10 and require it to lie between the years 2000 and 2100. -/
def extractTimestampFromId (id : String) : Option Int :=
  if id = "" then none
  else
    let parts := jsSplit '_' id
    if parts.length < 2 then none
    else
      let tsStr? : Option String :=
        if parts.length = 3 && isValidUUID (parts.getD 2 "") then
          some (parts.getD 1 "")
        else if parts.length = 2 && isValidUUID (parts.getD 1 "") then
          some (parts.getD 0 "")
        else none
      tsStr?.bind fun tsStr =>
        (jsParseInt tsStr).bind fun t =>
          if t < 946684800000 || t > 4102444800000 then none else some t

/-! ### Support lemmas for the id round trip -/

theorem splitChar_ne_nil (sep : Char) (l : List Char) : splitChar sep l ≠ [] := by
  cases l with
  | nil => simp [splitChar]
  | cons c cs =>
    simp only [splitChar]
    cases h : splitChar sep cs with
    | nil => simp
    | cons g gs =>
      by_cases hc : c = sep <;> simp [hc]

theorem splitChar_not_mem (sep : Char) (l : List Char) (h : sep ∉ l) :
    splitChar sep l = [l] := by
  induction l with
  | nil => rfl
  | cons c cs ih =>
    have hc : c ≠ sep := fun hcs => h (hcs ▸ List.mem_cons_self c cs)
    have hcs : sep ∉ cs := fun hm => h (List.mem_cons_of_mem _ hm)
    simp [splitChar, ih hcs, hc]

theorem splitChar_append_sep (sep : Char) (a rest : List Char) (h : sep ∉ a) :
    splitChar sep (a ++ sep :: rest) = a :: splitChar sep rest := by
  induction a with
  | nil =>
    simp only [List.nil_append, splitChar]
    cases hr : splitChar sep rest with
    | nil => exact absurd hr (splitChar_ne_nil sep rest)
    | cons g gs => simp
  | cons c cs ih =>
    have hc : c ≠ sep := fun hcs => h (hcs ▸ List.mem_cons_self c cs)
    have hcs : sep ∉ cs := fun hm => h (List.mem_cons_of_mem _ hm)
    rw [List.cons_append]
    simp only [splitChar]
    rw [ih hcs]
    simp [hc]

theorem decDigit_bounds : ∀ n, n < 10 → ('0' ≤ decDigit n ∧ decDigit n ≤ '9') := by
  decide

theorem decDigit_toNat : ∀ n, n < 10 → (decDigit n).toNat = 48 + n := by
  decide

theorem natToDecimalAux_digits (fuel n : Nat) :
    ∀ c ∈ natToDecimalAux fuel n, '0' ≤ c ∧ c ≤ '9' := by
  induction fuel generalizing n with
  | zero => intro c hc; simp [natToDecimalAux] at hc
  | succ f ih =>
    intro c hc
    simp only [natToDecimalAux] at hc
    by_cases h : n < 10
    · simp [h] at hc
      subst hc
      exact decDigit_bounds n h
    · simp [h] at hc
      rcases hc with hc | hc
      · exact ih (n / 10) c hc
      · subst hc
        exact decDigit_bounds (n % 10) (Nat.mod_lt _ (by omega))

theorem natToDecimal_digits (n : Nat) :
    ∀ c ∈ natToDecimal n, '0' ≤ c ∧ c ≤ '9' :=
  natToDecimalAux_digits (n + 1) n

theorem decValue_append (a b : List Char) :
    decValue (a ++ b) = b.foldl (fun acc c => 10 * acc + (c.toNat - 48)) (decValue a) := by
  simp [decValue, List.foldl_append]

theorem natToDecimalAux_value (fuel n : Nat) (h : n < fuel) :
    decValue (natToDecimalAux fuel n) = n := by
  induction fuel generalizing n with
  | zero => omega
  | succ f ih =>
    simp only [natToDecimalAux]
    by_cases h10 : n < 10
    · simp only [h10, if_true, decValue, List.foldl]
      rw [decDigit_toNat n h10]
      omega
    · simp only [h10, if_false]
      rw [decValue_append]
      have hdiv : n / 10 < f := by omega
      have hval := ih (n / 10) hdiv
      simp only [List.foldl]
      rw [hval, decDigit_toNat (n % 10) (Nat.mod_lt _ (by omega))]
      omega

theorem natToDecimal_value (n : Nat) : decValue (natToDecimal n) = n :=
  natToDecimalAux_value (n + 1) n (Nat.lt_succ_self n)

theorem natToDecimalAux_ne_nil (fuel n : Nat) (h : n < fuel) :
    natToDecimalAux fuel n ≠ [] := by
  cases fuel with
  | zero => omega
  | succ f =>
    simp only [natToDecimalAux]
    by_cases h10 : n < 10 <;> simp [h10]

theorem natToDecimalAux_forall (P : Char → Prop)
    (hP : ∀ k, k < 10 → P (decDigit k)) (fuel n : Nat) :
    ∀ c ∈ natToDecimalAux fuel n, P c := by
  induction fuel generalizing n with
  | zero => intro c hc; simp [natToDecimalAux] at hc
  | succ f ih =>
    intro c hc
    simp only [natToDecimalAux] at hc
    by_cases h : n < 10
    · simp [h] at hc
      subst hc
      exact hP n h
    · simp [h] at hc
      rcases hc with hc | hc
      · exact ih (n / 10) c hc
      · subst hc
        exact hP (n % 10) (Nat.mod_lt _ (by omega))

theorem decDigit_facts : ∀ k, k < 10 →
    ((decDigit k).isDigit = true ∧ isJsSpace (decDigit k) = false ∧
     decDigit k ≠ '_' ∧ decDigit k ≠ '-' ∧ decDigit k ≠ '+') := by
  decide

theorem matchesShape_length (ps : List (Char → Bool)) (l : List Char)
    (h : matchesShape ps l = true) : l.length = ps.length := by
  induction ps generalizing l with
  | nil => cases l with
    | nil => rfl
    | cons c cs => simp [matchesShape] at h
  | cons p ps ih =>
    cases l with
    | nil => simp [matchesShape] at h
    | cons c cs =>
      simp only [matchesShape, Bool.and_eq_true] at h
      simp [ih cs h.2]

theorem matchesShape_covers (ps : List (Char → Bool)) (l : List Char)
    (h : matchesShape ps l = true) : ∀ c ∈ l, ∃ p ∈ ps, p c = true := by
  induction ps generalizing l with
  | nil =>
    cases l with
    | nil => intro c hc; simp at hc
    | cons c cs => simp [matchesShape] at h
  | cons p ps ih =>
    cases l with
    | nil => simp [matchesShape] at h
    | cons c cs =>
      simp only [matchesShape, Bool.and_eq_true] at h
      intro d hd
      rcases List.mem_cons.mp hd with hd | hd
      · exact ⟨p, List.mem_cons_self _ _, hd ▸ h.1⟩
      · rcases ih cs h.2 d hd with ⟨q, hq, hqd⟩
        exact ⟨q, List.mem_cons_of_mem _ hq, hqd⟩

theorem uuidShape_rejects_underscore :
    uuidShape.all (fun p => !(p '_')) = true := by decide

theorem isValidUUID_no_underscore (u : String) (h : isValidUUID u = true) :
    '_' ∉ u.toList := by
  intro hm
  rcases matchesShape_covers uuidShape u.toList h '_' hm with ⟨p, hp, hpu⟩
  have := List.all_eq_true.mp uuidShape_rejects_underscore p hp
  simp [hpu] at this

theorem isValidUUID_length (u : String) (h : isValidUUID u = true) :
    u.toList.length = 36 := by
  have := matchesShape_length uuidShape u.toList h
  simpa using this

theorem string_toList_append (a b : String) :
    (a ++ b).toList = a.toList ++ b.toList := by
  simp [String.toList]

theorem takeWhile_isDigit_all (l : List Char) (h : ∀ c ∈ l, c.isDigit = true) :
    l.takeWhile Char.isDigit = l := by
  induction l with
  | nil => rfl
  | cons c cs ih =>
    simp only [List.takeWhile]
    rw [h c (List.mem_cons_self _ _)]
    simp [ih fun d hd => h d (List.mem_cons_of_mem _ hd)]

theorem string_mk_toList (l : List Char) : (String.mk l).toList = l := rfl

theorem jsParseInt_digit_list (l : List Char) (hne : l ≠ [])
    (hfacts : ∀ c ∈ l, c.isDigit = true ∧ isJsSpace c = false ∧
      c ≠ '_' ∧ c ≠ '-' ∧ c ≠ '+') :
    jsParseInt (String.mk l) = some ((decValue l : Nat) : Int) := by
  cases l with
  | nil => exact absurd rfl hne
  | cons d ds =>
    have hd := hfacts d (List.mem_cons_self _ _)
    simp only [jsParseInt, string_mk_toList]
    have hdrop : (d :: ds).dropWhile isJsSpace = d :: ds := by
      simp [List.dropWhile, hd.2.1]
    simp only [hdrop]
    have h1 : ¬ ((d :: ds).head? = some '-') := by
      simp [List.head?]
      exact hd.2.2.2.1
    have h2 : ¬ ((d :: ds).head? = some '+') := by
      simp [List.head?]
      exact hd.2.2.2.2
    have hall : ∀ c ∈ d :: ds, c.isDigit = true := fun c hc => (hfacts c hc).1
    simp only [h1, h2, if_false, or_self, decide_False, Bool.or_self]
    norm_num
    rw [takeWhile_isDigit_all _ hall]
    simp
    exact hd.1

theorem jsParseInt_decimal (n : Nat) :
    jsParseInt (String.mk (natToDecimal n)) = some (n : Int) := by
  have h := jsParseInt_digit_list (natToDecimal n)
    (natToDecimalAux_ne_nil (n + 1) n (Nat.lt_succ_self n))
    (natToDecimalAux_forall
      (fun c => c.isDigit = true ∧ isJsSpace c = false ∧ c ≠ '_' ∧ c ≠ '-' ∧ c ≠ '+')
      (fun k hk => decDigit_facts k hk) (n + 1) n)
  rw [h, natToDecimal_value]

/-- Claim C10 (IdGenerator round trip).  For a prefix with no underscore
and a clock value between the years 2000 and 2100, extracting the
timestamp from a prefixed id returns exactly the embedded clock value;
extracting from a bare UUID returns null; and extracting from record ids
(whose prefixes `chat_record` / `embedding_record` contain an underscore,
yielding four underscore-separated parts) also returns null. -/
theorem C10_id_round_trip (pfx : String) (now : Nat) (uuid : String)
    (hp : '_' ∉ pfx.toList) (hu : isValidUUID uuid = true)
    (h1 : 946684800000 ≤ now) (h2 : now ≤ 4102444800000) :
    extractTimestampFromId (generatePrefixedId pfx now uuid) = some (now : Int) ∧
    extractTimestampFromId (generateId uuid) = none ∧
    extractTimestampFromId (generateRecordId RecordType.chat now uuid) = none ∧
    extractTimestampFromId (generateRecordId RecordType.embedding now uuid) = none := by
  have hu_ne : '_' ∉ uuid.toList := isValidUUID_no_underscore uuid hu
  have hts : '_' ∉ natToDecimal now := by
    intro hm
    have := natToDecimalAux_forall
      (fun c => c.isDigit = true ∧ isJsSpace c = false ∧ c ≠ '_' ∧ c ≠ '-' ∧ c ≠ '+')
      (fun k hk => decDigit_facts k hk) (now + 1) now '_' hm
    exact this.2.2.1 rfl
  have htoList : (generatePrefixedId pfx now uuid).toList =
      pfx.toList ++ '_' :: (natToDecimal now ++ '_' :: uuid.toList) := by
    simp only [generatePrefixedId, string_toList_append]
    simp [String.toList]
  have hsplit : splitChar '_' (generatePrefixedId pfx now uuid).toList =
      [pfx.toList, natToDecimal now, uuid.toList] := by
    rw [htoList, splitChar_append_sep _ _ _ hp,
      splitChar_append_sep _ _ _ hts, splitChar_not_mem _ _ hu_ne]
  refine ⟨?_, ?_, ?_, ?_⟩
  · -- prefixed id round trip
    have hne : generatePrefixedId pfx now uuid ≠ "" := by
      intro h
      have := congrArg String.toList h
      rw [htoList] at this
      simp [String.toList] at this
    have hparts : jsSplit '_' (generatePrefixedId pfx now uuid) =
        [pfx, String.mk (natToDecimal now), uuid] := by
      simp only [jsSplit]
      rw [hsplit]
      rfl
    simp only [extractTimestampFromId, hne, if_false, hparts]
    simp only [List.length_cons, List.length_nil, List.getD, List.get?, Option.getD]
    norm_num [hu]
    rw [jsParseInt_decimal now]
    rw [Option.some_bind]
    have hcond : ¬ ((now : Int) < 946684800000 ∨ 4102444800000 < (now : Int)) := by
      rintro (hc | hc) <;> omega
    rw [if_neg hcond]
  · -- bare UUID returns null
    have hne : uuid ≠ "" := by
      intro h
      have hlen := isValidUUID_length uuid hu
      rw [h] at hlen
      simp [String.toList] at hlen
    have hparts : jsSplit '_' uuid = [uuid] := by
      simp only [jsSplit]
      rw [splitChar_not_mem _ _ hu_ne]
      rfl
    simp only [extractTimestampFromId, generateId, hne, if_false, hparts]
    simp
  · -- chat record id: four parts
    have hcr : ("chat_record" : String).toList =
        ("chat" : String).toList ++ '_' :: ("record" : String).toList := by decide
    have htoList4 : (generateRecordId RecordType.chat now uuid).toList =
        ("chat" : String).toList ++ '_' :: (("record" : String).toList ++
          '_' :: (natToDecimal now ++ '_' :: uuid.toList)) := by
      simp only [generateRecordId, generatePrefixedId, string_toList_append]
      rw [hcr]
      simp [String.toList]
    have hne : generateRecordId RecordType.chat now uuid ≠ "" := by
      intro h
      have := congrArg String.toList h
      rw [htoList4] at this
      simp [String.toList] at this
    have hrec : '_' ∉ ("record" : String).toList := by decide
    have hchat : '_' ∉ ("chat" : String).toList := by decide
    have hparts : jsSplit '_' (generateRecordId RecordType.chat now uuid) =
        ["chat", "record", String.mk (natToDecimal now), uuid] := by
      simp only [jsSplit]
      rw [htoList4, splitChar_append_sep _ _ _ hchat,
        splitChar_append_sep _ _ _ hrec,
        splitChar_append_sep _ _ _ hts, splitChar_not_mem _ _ hu_ne]
      rfl
    simp only [extractTimestampFromId, hne, if_false, hparts]
    simp
  · -- embedding record id: four parts
    have hcr : ("embedding_record" : String).toList =
        ("embedding" : String).toList ++ '_' :: ("record" : String).toList := by decide
    have htoList4 : (generateRecordId RecordType.embedding now uuid).toList =
        ("embedding" : String).toList ++ '_' :: (("record" : String).toList ++
          '_' :: (natToDecimal now ++ '_' :: uuid.toList)) := by
      simp only [generateRecordId, generatePrefixedId, string_toList_append]
      rw [hcr]
      simp [String.toList]
    have hne : generateRecordId RecordType.embedding now uuid ≠ "" := by
      intro h
      have := congrArg String.toList h
      rw [htoList4] at this
      simp [String.toList] at this
    have hrec : '_' ∉ ("record" : String).toList := by decide
    have hemb : '_' ∉ ("embedding" : String).toList := by decide
    have hparts : jsSplit '_' (generateRecordId RecordType.embedding now uuid) =
        ["embedding", "record", String.mk (natToDecimal now), uuid] := by
      simp only [jsSplit]
      rw [htoList4, splitChar_append_sep _ _ _ hemb,
        splitChar_append_sep _ _ _ hrec,
        splitChar_append_sep _ _ _ hts, splitChar_not_mem _ _ hu_ne]
      rfl
    simp only [extractTimestampFromId, hne, if_false, hparts]
    simp

/-! ## CategoryMetadataExtractor: data model

The extractor (CategoryMetadataExtractor.ts, current revision) is embedded
below.  JS numbers are rationals, JS `Map` an insertion-ordered
association list, and `RegExp` an abstract engine oracle. -/

/-- CategoryNode of the hierarchy manager: id, name, optional parentId,
children, depth and slash-joined fullPath. -/
inductive CategoryNode where
  | mk (id name : String) (parentId : Option String)
       (children : List CategoryNode) (depth : Nat) (fullPath : String) :
       CategoryNode

def CategoryNode.id : CategoryNode → String
  | .mk i _ _ _ _ _ => i

def CategoryNode.name : CategoryNode → String
  | .mk _ n _ _ _ _ => n

def CategoryNode.parentId : CategoryNode → Option String
  | .mk _ _ p _ _ _ => p

def CategoryNode.children : CategoryNode → List CategoryNode
  | .mk _ _ _ c _ _ => c

def CategoryNode.depth : CategoryNode → Nat
  | .mk _ _ _ _ d _ => d

def CategoryNode.fullPath : CategoryNode → String
  | .mk _ _ _ _ _ f => f

/-- Modelled from the spec: the CategoryHierarchyManager class is not among
the provided sources; the extractor reads it only through `getNode`,
`getAllNodes` and `getAncestors` (spec section 4.1, "an in-memory tree of
category nodes with parent/child/ancestor lookup"), modelled here as an
abstract capability record.  A hierarchy state is a value of this type. -/
structure CategoryHierarchyManager where
  getNode : String → Option CategoryNode
  getAllNodes : List CategoryNode
  getAncestors : String → List CategoryNode

/-- A JS pattern: either a source string (compiled `new RegExp(s, 'gi')`)
or a regex literal carrying its source and its `g` / `i` flags. -/
inductive JsPattern where
  | str (s : String)
  | regex (src : String) (globalFlag : Bool) (ignoreCase : Bool)
  deriving DecidableEq

/-- Source, global flag and ignore-case flag of the regex the code builds
from a rule pattern (string patterns get flags `gi`). -/
def JsPattern.compiled : JsPattern → String × Bool × Bool
  | .str s => (s, true, true)
  | .regex src g i => (src, g, i)

/-- CategoryExtractionRule. -/
structure CategoryExtractionRule where
  name : String
  pattern : JsPattern
  category : String
  hierarchySuggestion : Option String := none
  hierarchical : Bool := false
  confidence : ℚ
  priority : ℚ
  enabled : Bool
  deriving DecidableEq

/-- CategoryExtractionConfig. -/
structure CategoryExtractionConfig where
  enableMLExtraction : Bool
  enablePatternExtraction : Bool
  enableMetadataExtraction : Bool
  enableHierarchicalExpansion : Bool
  enableHierarchyValidation : Bool
  enableCategorySuggestions : Bool
  enableBatchProcessing : Bool
  confidenceThreshold : ℚ
  maxCategoriesPerMemory : Nat
  enableCategoryNormalization : Bool
  customExtractionRules : List CategoryExtractionRule
  extractionTimeout : Nat

/-- Default configuration merged in the constructor (before the caller's
partial overrides). -/
def defaultConfig : CategoryExtractionConfig where
  enableMLExtraction := false
  enablePatternExtraction := true
  enableMetadataExtraction := true
  enableHierarchicalExpansion := false
  enableHierarchyValidation := false
  enableCategorySuggestions := false
  enableBatchProcessing := false
  confidenceThreshold := 1/2
  maxCategoriesPerMemory := 3
  enableCategoryNormalization := true
  customExtractionRules := []
  extractionTimeout := 5000

/-- MemoryMetadata: the fields the extractor reads.  The `timestamp`,
`author` and `source` fields are never read by any extractor code path and
are omitted. -/
structure MemoryMetadata where
  content : String
  summary : Option String := none
  existingCategories : Option (List String) := none
  tags : Option (List String) := none
  entities : Option (List String) := none
  topics : Option (List String) := none
  keywords : Option (List String) := none
  deriving DecidableEq

/-- Source tag of an extracted category. -/
inductive CategorySource where
  | pattern
  | ml
  | metadata
  | rule
  | hierarchySuggestion
  deriving DecidableEq

/-- ExtractedCategory. -/
structure ExtractedCategory where
  name : String
  confidence : ℚ
  source : CategorySource
  normalizedName : String
  hierarchyPath : Option String := none
  relevanceScore : ℚ
  deriving DecidableEq

/-- Extraction method reported in a result. -/
inductive ExtractionMethod where
  | pattern
  | ml
  | metadata
  | rule
  | hybrid
  deriving DecidableEq

/-- The metadata object attached to an extraction result: the success
shape carries the count fields the code writes; the fallback shape is the
object `fallback: true, reason: ...` written by createFallbackResult.
The environmental `extractionTimestamp` string is omitted. -/
inductive ExtractionMeta where
  | success (totalCategoriesFound categoriesFiltered : Nat)
      (validationErrors : Bool) (validationWarnings : List String)
      (categorySuggestions : Nat)
  | fallback (reason : String)
  deriving DecidableEq

/-- Whether a result metadata object contains `fallback=true`. -/
def ExtractionMeta.isFallback : ExtractionMeta → Bool
  | .fallback _ => true
  | _ => false

/-- CategoryExtractionResult. -/
structure CategoryExtractionResult where
  categories : List ExtractedCategory
  primaryCategory : String
  confidence : ℚ
  extractionMethod : ExtractionMethod
  metadata : ExtractionMeta
  deriving DecidableEq

/-! ## JS helpers used by the extractor -/

/-- JS `Map.get`. -/
def mapGet {α : Type} : List (String × α) → String → Option α
  | [], _ => none
  | (k', v') :: rest, k => if k' = k then some v' else mapGet rest k

/-- JS `Map.set`: update in place when the key exists (keeping its
insertion position), otherwise append. -/
def mapSet {α : Type} : List (String × α) → String → α → List (String × α)
  | [], k, v => [(k, v)]
  | (k', v') :: rest, k, v =>
    if k' = k then (k, v) :: rest else (k', v') :: mapSet rest k v

/-- JS truthiness for an optional string: `undefined` and `""` are falsy. -/
def truthyStr : Option String → Option String
  | some s => if s = "" then none else some s
  | none => none

/-- JS `toLowerCase` (ASCII). -/
def jsToLower (s : String) : String := String.mk (s.toList.map Char.toLower)

/-- JS `trim`. -/
def jsTrim (l : List Char) : List Char :=
  ((l.dropWhile isJsSpace).reverse.dropWhile isJsSpace).reverse

/-- Replace every whitespace character by a dash; collapsing dash runs
afterwards makes this equivalent to the regex replacement `\s+` to `-`. -/
def wsToDash (l : List Char) : List Char :=
  l.map fun c => if isJsSpace c then '-' else c

/-- Collapse runs of dashes to a single dash (regex `-+` to `-`). -/
def collapseDashes : List Char → List Char
  | [] => []
  | [c] => [c]
  | c1 :: c2 :: rest =>
    if c1 = '-' ∧ c2 = '-' then collapseDashes (c2 :: rest)
    else c1 :: collapseDashes (c2 :: rest)

/-- Replace each whitespace run by a single dash (regex `\s+` to `-`),
used for virtual node ids. -/
def wsRunsToDashGo (prevWs : Bool) : List Char → List Char
  | [] => []
  | c :: rest =>
    if isJsSpace c then
      if prevWs then wsRunsToDashGo true rest
      else '-' :: wsRunsToDashGo true rest
    else c :: wsRunsToDashGo false rest

def wsRunsToDash (s : String) : String := String.mk (wsRunsToDashGo false s.toList)

/-- Characters kept by the normalization regex `[^a-z0-9\s-]` to `""`
(applied after lowercasing). -/
def isNormKeep (c : Char) : Bool :=
  ('a' ≤ c && c ≤ 'z') || c.isDigit || isJsSpace c || c = '-'

/-- normalizeCategory: lowercase, trim, strip disallowed characters, turn
whitespace runs into dashes, collapse dash runs; identity when
normalization is disabled. -/
def normalizeCategory (cfg : CategoryExtractionConfig) (category : String) : String :=
  if !cfg.enableCategoryNormalization then category
  else
    String.mk (collapseDashes (wsToDash
      (((jsTrim ((jsToLower category).toList))).filter isNormKeep)))

/-- JS `String.prototype.substring(0, n)`. -/
def stringTake (s : String) (n : Nat) : String := String.mk (s.toList.take n)

/-- Substring scan: does `needle` occur contiguously in the list? -/
def isSubList (needle : List Char) : List Char → Bool
  | [] => needle.isEmpty
  | c :: rest => needle.isPrefixOf (c :: rest) || isSubList needle rest

/-- JS `includes` (substring test). -/
def jsIncludes (hay needle : String) : Bool :=
  isSubList needle.toList hay.toList

/-- Fuelled counter of non-overlapping occurrences, scanning left to
right and skipping the length of the needle after each hit, as a global
regex built from a literal does. -/
def countOccurAux (needle : List Char) : Nat → List Char → Nat
  | 0, _ => 0
  | fuel + 1, hay =>
    match hay with
    | [] => 0
    | c :: rest =>
      if needle.isPrefixOf (c :: rest) then
        1 + countOccurAux needle fuel ((c :: rest).drop needle.length)
      else countOccurAux needle fuel rest

/-- Occurrence count of `content.match(new RegExp(needle, 'g'))` for a
needle without regex metacharacters; the empty pattern matches at every
position. -/
def countOccurrences (needle hay : String) : Nat :=
  if needle = "" then hay.length + 1
  else countOccurAux needle.toList (hay.toList.length + 1) hay.toList

/-- JS array join with a single space separator. -/
def joinSpace : List String → String
  | [] => ""
  | [s] => s
  | s :: rest => s ++ " " ++ joinSpace rest

/-! ## Extractor: scoring and hierarchy resolution -/

/-- calculatePositionConfidence: position boost by relative match
offset. -/
def calculatePositionConfidence (position textLength : Nat) : ℚ :=
  if textLength = 0 then 1/2
  else
    let relativePosition : ℚ := (position : ℚ) / (textLength : ℚ)
    if relativePosition < 1/10 then 6/5
    else if relativePosition < 3/10 then 1
    else if relativePosition < 1/2 then 4/5
    else 3/5

/-- calculateHierarchicalRelevanceScore. -/
def calculateHierarchicalRelevanceScore (category : String)
    (categoryNode : Option CategoryNode) (m : MemoryMetadata) : ℚ :=
  let content := jsToLower m.content
  let categoryLower := jsToLower category
  let occurrences := countOccurrences categoryLower content
  let s1 : ℚ := 1/2 + min ((occurrences : ℚ) * (1/10)) (3/10)
  let s2 : ℚ := s1 +
    (match m.summary with
     | some sm => if jsIncludes (jsToLower sm) categoryLower then 1/5 else 0
     | none => 0)
  let tagsAndEntities := jsToLower (joinSpace (m.tags.getD [] ++ m.entities.getD []))
  let s3 : ℚ := s2 + (if jsIncludes tagsAndEntities categoryLower then 1/5 else 0)
  let s4 : ℚ := s3 +
    (match categoryNode with
     | some node =>
       if node.fullPath ≠ "" then
         (1/10) + (if 0 < node.depth then min ((node.depth : ℚ) * (1/20)) (1/5) else 0)
       else 0
     | none => 0)
  min s4 1

/-- findHierarchySuggestion: first enabled hierarchical rule declaring
this category (an empty suggestion string is falsy). -/
def findHierarchySuggestion (rules : List CategoryExtractionRule)
    (categoryName : String) : Option String :=
  (rules.filter fun r => r.enabled && r.hierarchical).findSome? fun r =>
    match truthyStr r.hierarchySuggestion with
    | some s => if r.category = categoryName then some s else none
    | none => none

/-- createVirtualHierarchyNode. -/
def createVirtualHierarchyNode (cfg : CategoryExtractionConfig)
    (categoryName : String) : CategoryNode :=
  CategoryNode.mk (normalizeCategory cfg categoryName) categoryName none [] 0 categoryName

/-- resolveCategoryHierarchy: exact match, then rule-declared suggestion
(virtual node when the suggested path is absent), then a virtual node. -/
def resolveCategoryHierarchy (mgr : CategoryHierarchyManager)
    (rules : List CategoryExtractionRule) (cfg : CategoryExtractionConfig)
    (categoryName : String) : Option CategoryNode :=
  match mgr.getNode categoryName with
  | some exactMatch => some exactMatch
  | none =>
    match findHierarchySuggestion rules categoryName with
    | some suggestion =>
      match mgr.getNode suggestion with
      | some suggestionNode => some suggestionNode
      | none =>
        some (CategoryNode.mk (wsRunsToDash (jsToLower categoryName)) categoryName
          none [] ((jsSplit '/' suggestion).length - 1) suggestion)
    | none => some (createVirtualHierarchyNode cfg categoryName)

/-! ## findMatches: the guarded regex match loop

The regex engine is abstract: given a pattern source, the ignore-case
flag, the text and a start position it may return a match (index and
matched substring) or nothing.  The wall-clock probe
`Date.now() - startTime > maxTime` is an abstract boolean oracle of the
iteration count.  Quantifying theorems over both captures arbitrary
(including adversarial, non-advancing) matcher behavior. -/

def RegexEngine : Type := String → Bool → String → Nat → Option (Nat × String)

/-- One match pushed by findMatches. -/
structure PatternMatch where
  category : String
  confidence : ℚ
  matchedPattern : String
  matchPosition : Nat
  deriving DecidableEq

/-- Loop state of findMatches: accumulated results, the regex
`lastIndex`, the match count, the last seen match index, the consecutive
empty-match count and the number of loop-body iterations so far. -/
structure FindState where
  results : List PatternMatch
  regexLastIndex : Nat
  matchCount : Nat
  lastIndex : Nat
  consecEmpty : Nat
  iters : Nat
  deriving DecidableEq

def findInit : FindState := ⟨[], 0, 0, 0, 0, 0⟩

/-- One iteration of the findMatches while loop; `Sum.inl` ends the loop
(returning the final state), `Sum.inr` continues.  Mirrors, in order: the
loop condition (exec result and `matchCount < maxMatches` with
maxMatches = 50), the time-budget check, the consecutive-empty-match
guard (bound 3, advancing `lastIndex` manually), the stuck-position
guard, the confidence computation and push, and the end-of-string
break. -/
def findStep (eng : RegexEngine) (tmo : Nat → Bool) (text : String)
    (rule : CategoryExtractionRule) (s : FindState) : FindState ⊕ FindState :=
  match eng rule.pattern.compiled.1 rule.pattern.compiled.2.2 text
      (if rule.pattern.compiled.2.1 then s.regexLastIndex else 0) with
  | none => .inl s
  | some (idx, m) =>
    if 50 ≤ s.matchCount then .inl s
    else if tmo (s.iters + 1) then .inl { s with iters := s.iters + 1 }
    else if m = "" then
      if 3 < s.consecEmpty + 1 then .inl { s with iters := s.iters + 1 }
      else .inr { s with
        iters := s.iters + 1
        consecEmpty := s.consecEmpty + 1
        regexLastIndex := idx + 1 }
    else if idx = s.lastIndex ∧ 0 < s.matchCount then .inl { s with iters := s.iters + 1 }
    else
      let s2 : FindState :=
        { results := s.results ++ [⟨rule.category,
            min (rule.confidence * calculatePositionConfidence idx text.length) 1, m, idx⟩]
          regexLastIndex := idx + m.length
          matchCount := s.matchCount + 1
          lastIndex := idx
          consecEmpty := 0
          iters := s.iters + 1 }
      if text.length ≤ idx + m.length then .inl s2
      else .inr s2

/-- Fuelled driver of the findMatches loop.  The fuel only bounds the
recursion depth of the embedding; the termination theorem for claim C2
proves the loop always ends within the fuel supplied by findMatches. -/
def findGo (eng : RegexEngine) (tmo : Nat → Bool) (text : String)
    (rule : CategoryExtractionRule) : Nat → FindState → FindState
  | 0, s => s
  | fuel + 1, s =>
    match findStep eng tmo text rule s with
    | .inl d => d
    | .inr s' => findGo eng tmo text rule fuel s'

/-- findMatches: empty text returns no results; otherwise run the guarded
loop from the reset state. -/
def findMatches (eng : RegexEngine) (tmo : Nat → Bool) (text : String)
    (rule : CategoryExtractionRule) : List PatternMatch :=
  if text = "" then []
  else (findGo eng tmo text rule 256 findInit).results

/-! ## extractFromPatterns -/

/-- The capped search-text accumulation loop (maxTextLength = 10000): on
overflow append a space and the truncated part and stop. -/
def buildTextLoop : List String → String → String
  | [], acc => acc
  | part :: rest, acc =>
    if 10000 < acc.length + part.length then
      acc ++ " " ++ stringTake part (10000 - acc.length)
    else buildTextLoop rest (if acc = "" then part else acc ++ " " ++ part)

/-- The text searched by pattern extraction: content, summary, tags,
entities, topics and keywords joined under the size cap, lowercased. -/
def buildSearchText (m : MemoryMetadata) : String :=
  jsToLower (buildTextLoop
    ([m.content, m.summary.getD ""] ++ m.tags.getD [] ++ m.entities.getD [] ++
      m.topics.getD [] ++ m.keywords.getD []) "")

/-- The duplicate-removal fold of extractFromPatterns: keyed by the raw
category name, replacing only on strictly larger confidence. -/
def dedupFold (acc : List (String × PatternMatch)) :
    List PatternMatch → List (String × PatternMatch)
  | [] => acc
  | r :: rest =>
    let acc' :=
      match mapGet acc r.category with
      | none => mapSet acc r.category r
      | some existing =>
        if existing.confidence < r.confidence then mapSet acc r.category r else acc
    dedupFold acc' rest

/-- The concatenated per-rule match lists before duplicate removal: every
enabled rule run against the capped lowercased text, each rule with its
own wall-clock oracle.  A rule whose pattern fails to compile is skipped
by the catch block; such a rule is modelled by an engine returning no
matches for it. -/
def rawPatternResults (eng : RegexEngine) (tmo : Nat → Nat → Bool)
    (rules : List CategoryExtractionRule) (m : MemoryMetadata) :
    List PatternMatch :=
  ((rules.filter (·.enabled)).enum.map fun p =>
    findMatches eng (tmo p.1) (buildSearchText m) p.2).flatten

/-- extractFromPatterns: run every enabled rule, then remove duplicates
keeping the highest confidence per raw category name. -/
def extractFromPatterns (eng : RegexEngine) (tmo : Nat → Nat → Bool)
    (rules : List CategoryExtractionRule) (m : MemoryMetadata) :
    List PatternMatch :=
  (dedupFold [] (rawPatternResults eng tmo rules m)).map Prod.snd

/-! ## performExtraction -/

/-- extractFromML: the ML path is a placeholder returning no
categories. -/
def extractFromML (_m : MemoryMetadata) : List ExtractedCategory := []

/-- Result of validateCategoryHierarchy. -/
structure ValidationResult where
  isValid : Bool
  errors : List String
  warnings : List String

/-- The running `currentPath` values of the hierarchy path walk. -/
def pathAccum : List String → String → List String
  | [], _ => []
  | part :: rest, cur =>
    let cur' := if cur = "" then part else cur ++ "/" ++ part
    cur' :: pathAccum rest cur'

/-- validateCategoryHierarchy: warnings only, errors always empty. -/
def validateCategoryHierarchy (mgr : CategoryHierarchyManager)
    (cat : ExtractedCategory) : ValidationResult :=
  match truthyStr cat.hierarchyPath with
  | none => ⟨true, [], ["Category " ++ cat.name ++ " has no hierarchy path"]⟩
  | some hp =>
    let w1 := ((pathAccum (jsSplit '/' hp) "").filter
        (fun p => (mgr.getNode p).isNone)).map
      (fun p => "Hierarchy path segment \"" ++ p ++ "\" not found in category tree")
    let w2 :=
      if cat.name ≠ "" then
        let expectedPath := if jsIncludes hp cat.name then hp else hp ++ "/" ++ cat.name
        if expectedPath ≠ hp then
          ["Category name \"" ++ cat.name ++ "\" inconsistent with hierarchy path \"" ++
            hp ++ "\""]
        else []
      else []
    ⟨true, [], w1 ++ w2⟩

/-- Last segment of a slash path (`split('/').pop() || baseHierarchy`). -/
def lastSegment (s : String) : String :=
  let last := (jsSplit '/' s).getLastD ""
  if last = "" then s else last

/-- applyHierarchicalPatternExpansion: for up to 5 categories produced by
an enabled hierarchical rule, add the parent category of the rule's
hierarchy suggestion at 0.7 confidence. -/
def applyHPEGo (cfg : CategoryExtractionConfig)
    (rules : List CategoryExtractionRule) :
    List ExtractedCategory → Nat → List ExtractedCategory
  | [], _ => []
  | cat :: rest, count =>
    if 5 ≤ count then []
    else
      match rules.find? (fun r => r.enabled && r.hierarchical && r.category = cat.name) with
      | some rule =>
        match truthyStr rule.hierarchySuggestion with
        | some baseHierarchy =>
          let parentCategory := lastSegment baseHierarchy
          if parentCategory ≠ cat.name then
            { name := parentCategory
              hierarchyPath := some baseHierarchy
              confidence := cat.confidence * (7/10)
              source := .hierarchySuggestion
              normalizedName := normalizeCategory cfg parentCategory
              relevanceScore := cat.relevanceScore * (7/10) } ::
              applyHPEGo cfg rules rest (count + 1)
          else applyHPEGo cfg rules rest count
        | none => applyHPEGo cfg rules rest count
      | none => applyHPEGo cfg rules rest count

def applyHierarchicalPatternExpansion (cfg : CategoryExtractionConfig)
    (rules : List CategoryExtractionRule)
    (categories : List ExtractedCategory) : List ExtractedCategory :=
  applyHPEGo cfg rules categories 0

/-- getSiblingCategories. -/
def getSiblingCategories (mgr : CategoryHierarchyManager)
    (categoryNode : CategoryNode) : List CategoryNode :=
  match truthyStr categoryNode.parentId with
  | none => []
  | some pid =>
    match mgr.getNode pid with
    | none => []
    | some parentNode =>
      parentNode.children.filter fun child => child.id ≠ categoryNode.id

/-- suggestRelatedCategories: up to 3 sibling suggestions at 0.6
confidence, then the nearest ancestor at 0.8 confidence if the cap is
not yet reached. -/
def suggestRelatedCategories (mgr : CategoryHierarchyManager)
    (cat : ExtractedCategory) : List ExtractedCategory :=
  match truthyStr cat.hierarchyPath with
  | none => []
  | some _ =>
    match mgr.getNode cat.name with
    | none => []
    | some categoryNode =>
      let siblings := getSiblingCategories mgr categoryNode
      let sibSuggestions := (siblings.take 3).map fun sibling =>
        { name := sibling.name
          hierarchyPath := some sibling.fullPath
          confidence := cat.confidence * (3/5)
          source := CategorySource.hierarchySuggestion
          normalizedName := sibling.id
          relevanceScore := cat.relevanceScore * (7/10) : ExtractedCategory }
      let parentSuggestions :=
        if sibSuggestions.length < 3 then
          let ancestors := mgr.getAncestors cat.name
          match ancestors.getLast? with
          | some parent =>
            [{ name := parent.name
               hierarchyPath := some parent.fullPath
               confidence := cat.confidence * (4/5)
               source := CategorySource.hierarchySuggestion
               normalizedName := parent.id
               relevanceScore := cat.relevanceScore * (4/5) : ExtractedCategory }]
          | none => []
        else []
      sibSuggestions ++ parentSuggestions

/-- determineExtractionMethod. -/
def determineExtractionMethod (categories : List ExtractedCategory) :
    ExtractionMethod :=
  let sources := categories.map (·.source)
  let hasML := sources.contains CategorySource.ml
  let hasPattern := sources.contains CategorySource.pattern
  let hasMetadata := sources.contains CategorySource.metadata
  let hasRule := sources.contains CategorySource.rule
  if hasML && (hasPattern || hasMetadata) then .hybrid
  else if hasML then .ml
  else if hasPattern then .pattern
  else if hasMetadata then .metadata
  else if hasRule then .rule
  else .pattern

/-- Stable insert for the descending confidence sort. -/
def insertConfDesc (x : ExtractedCategory) :
    List ExtractedCategory → List ExtractedCategory
  | [] => [x]
  | y :: ys => if y.confidence < x.confidence then x :: y :: ys else y :: insertConfDesc x ys

/-- Stable sort by confidence descending (the comparator
`(a, b) => b.confidence - a.confidence` under a stable Array sort). -/
def sortByConfDesc (l : List ExtractedCategory) : List ExtractedCategory :=
  l.foldl (fun acc x => insertConfDesc x acc) []

/-- The merge of existing-category entries (phase 1 of
performExtraction): each entry is written unconditionally at confidence
0.9 with source metadata, keyed by its normalized name. -/
def mergeExistingCategories (mgr : CategoryHierarchyManager)
    (rules : List CategoryExtractionRule) (cfg : CategoryExtractionConfig)
    (m : MemoryMetadata) (cats : List String) :
    List (String × ExtractedCategory) → List (String × ExtractedCategory) :=
  fun acc => cats.foldl (fun acc category =>
    let normalized := normalizeCategory cfg category
    let categoryNode := resolveCategoryHierarchy mgr rules cfg category
    mapSet acc normalized
      { name := category
        hierarchyPath := categoryNode.map CategoryNode.fullPath
        confidence := 9/10
        source := .metadata
        normalizedName := normalized
        relevanceScore := calculateHierarchicalRelevanceScore category categoryNode m }) acc

/-- The merge of pattern results (phase 2 of performExtraction): keyed by
normalized name, replacing only on strictly larger confidence. -/
def mergePatternResults (mgr : CategoryHierarchyManager)
    (rules : List CategoryExtractionRule) (cfg : CategoryExtractionConfig)
    (m : MemoryMetadata) (patternResults : List PatternMatch)
    (acc : List (String × ExtractedCategory)) :
    List (String × ExtractedCategory) :=
  patternResults.foldl (fun acc result =>
    let normalized := normalizeCategory cfg result.category
    let categoryNode := resolveCategoryHierarchy mgr rules cfg result.category
    match mapGet acc normalized with
    | some existing =>
      if existing.confidence < result.confidence then
        mapSet acc normalized
          { name := result.category
            hierarchyPath := categoryNode.map CategoryNode.fullPath
            confidence := result.confidence
            source := .pattern
            normalizedName := normalized
            relevanceScore := calculateHierarchicalRelevanceScore result.category categoryNode m }
      else acc
    | none =>
      mapSet acc normalized
        { name := result.category
          hierarchyPath := categoryNode.map CategoryNode.fullPath
          confidence := result.confidence
          source := .pattern
          normalizedName := normalized
          relevanceScore := calculateHierarchicalRelevanceScore result.category categoryNode m }) acc

/-- Phase 1 of performExtraction: the candidate map seeded from
existingCategories (skipped when metadata extraction is disabled or the
field is undefined). -/
def metadataPhase (mgr : CategoryHierarchyManager)
    (rules : List CategoryExtractionRule) (cfg : CategoryExtractionConfig)
    (m : MemoryMetadata) : List (String × ExtractedCategory) :=
  if cfg.enableMetadataExtraction then
    match m.existingCategories with
    | some cats => mergeExistingCategories mgr rules cfg m cats []
    | none => []
  else []

/-- The merged candidate map of performExtraction (phases 1-2; the ML
phase folds over the empty extractFromML result and adds nothing). -/
def mergedCandidates (mgr : CategoryHierarchyManager) (eng : RegexEngine)
    (tmo : Nat → Nat → Bool) (rules : List CategoryExtractionRule)
    (cfg : CategoryExtractionConfig) (m : MemoryMetadata) :
    List (String × ExtractedCategory) :=
  if cfg.enablePatternExtraction then
    mergePatternResults mgr rules cfg m (extractFromPatterns eng tmo rules m)
      (metadataPhase mgr rules cfg m)
  else metadataPhase mgr rules cfg m

/-- performExtraction (the success path; an internal throw is modelled at
the extractCategories level). -/
def performExtraction (mgr : CategoryHierarchyManager) (eng : RegexEngine)
    (tmo : Nat → Nat → Bool) (rules : List CategoryExtractionRule)
    (cfg : CategoryExtractionConfig) (m : MemoryMetadata) :
    CategoryExtractionResult :=
  let extracted0 := (mergedCandidates mgr eng tmo rules cfg m).map Prod.snd
  let expanded :=
    if cfg.enableHierarchicalExpansion then
      applyHierarchicalPatternExpansion cfg rules extracted0
    else []
  let extracted1 := extracted0 ++ expanded
  let suggestions :=
    if cfg.enableCategorySuggestions then
      ((extracted1 ++ expanded).map (suggestRelatedCategories mgr)).flatten
    else []
  let extracted2 := extracted1 ++ suggestions
  let validations :=
    if cfg.enableHierarchyValidation then
      (extracted2 ++ expanded).map (validateCategoryHierarchy mgr)
    else []
  let hasValidationErrors := validations.any fun v => !v.isValid
  let validationWarnings := (validations.map (·.warnings)).flatten
  let sorted := sortByConfDesc extracted2
  let filteredCategories :=
    (sorted.filter fun cat => cfg.confidenceThreshold ≤ cat.confidence).take
      cfg.maxCategoriesPerMemory
  let primaryCategory :=
    match filteredCategories with
    | [] => "General"
    | c :: _ => c.name
  let totalConfidence : ℚ :=
    if filteredCategories.length ≠ 0 then
      ((filteredCategories.map (·.confidence)).sum) / (filteredCategories.length : ℚ)
    else 0
  { categories := filteredCategories
    primaryCategory := primaryCategory
    confidence := totalConfidence
    extractionMethod := determineExtractionMethod filteredCategories
    metadata := .success extracted2.length (extracted2.length - filteredCategories.length)
      hasValidationErrors validationWarnings suggestions.length }

/-- createFallbackResult: first existing category (empty-string first
entries are falsy in JS and fall back to General) at confidence 0.3,
metadata `fallback: true`. -/
def createFallbackResult (mgr : CategoryHierarchyManager)
    (rules : List CategoryExtractionRule) (cfg : CategoryExtractionConfig)
    (m : MemoryMetadata) : CategoryExtractionResult :=
  let fallbackCategory :=
    match m.existingCategories with
    | some (c :: _) => if c = "" then "General" else c
    | _ => "General"
  let categoryNode := resolveCategoryHierarchy mgr rules cfg fallbackCategory
  { categories := [{
      name := fallbackCategory
      hierarchyPath := categoryNode.map CategoryNode.fullPath
      confidence := 3/10
      source := .metadata
      normalizedName := normalizeCategory cfg fallbackCategory
      relevanceScore := 1/2 }]
    primaryCategory := fallbackCategory
    confidence := 3/10
    extractionMethod := .pattern
    metadata := .fallback "Extraction failed or timed out" }

/-! ## Cache key and the extractCategories entry point -/

/-- getHierarchyVersion: sum over all nodes of name length plus depth. -/
def getHierarchyVersion (mgr : CategoryHierarchyManager) : Nat :=
  mgr.getAllNodes.foldl (fun hash node => hash + node.name.length + node.depth) 0

/-- Hexadecimal digit for JSON unicode escapes. -/
def hexDigit (n : Nat) : Char :=
  if n < 10 then Char.ofNat (48 + n) else Char.ofNat (97 + (n - 10))

/-- JSON escape of one character as JSON.stringify performs it. -/
def jsonEscapeChar (c : Char) : List Char :=
  if c = '"' then ['\\', '"']
  else if c = '\\' then ['\\', '\\']
  else if c = '\x08' then ['\\', 'b']
  else if c = '\x0c' then ['\\', 'f']
  else if c = '\n' then ['\\', 'n']
  else if c = '\r' then ['\\', 'r']
  else if c = '\t' then ['\\', 't']
  else if c.toNat < 32 then
    ['\\', 'u', hexDigit (c.toNat / 4096 % 16), hexDigit (c.toNat / 256 % 16),
      hexDigit (c.toNat / 16 % 16), hexDigit (c.toNat % 16)]
  else [c]

/-- JSON string literal. -/
def jsonString (s : String) : List Char :=
  '"' :: (s.toList.map jsonEscapeChar).flatten ++ ['"']

/-- Comma-separated concatenation. -/
def commaJoin : List (List Char) → List Char
  | [] => []
  | [x] => x
  | x :: rest => x ++ ',' :: commaJoin rest

/-- JSON array of strings. -/
def jsonStringArray (l : List String) : List Char :=
  '[' :: commaJoin (l.map jsonString) ++ [']']

/-- Lexicographic insertion by UTF-16 code units (JS default sort). -/
def insertStringAsc (x : String) : List String → List String
  | [] => [x]
  | y :: ys => if x < y then x :: y :: ys else y :: insertStringAsc x ys

/-- JS default `Array.prototype.sort` on strings. -/
def sortStrings (l : List String) : List String :=
  l.foldl (fun acc x => insertStringAsc x acc) []

/-- The JSON rendering of the cache key data, with fields in property
insertion order and `undefined` fields omitted, as JSON.stringify
renders the keyData object. -/
def cacheKeyJson (mgr : CategoryHierarchyManager) (m : MemoryMetadata) :
    List Char :=
  let optionalFields : List (List Char) :=
    (match m.summary with
     | some s => [("\"summary\":").toList ++ jsonString s]
     | none => []) ++
    (match m.existingCategories with
     | some cs => [("\"existingCategories\":").toList ++ jsonStringArray (sortStrings cs)]
     | none => []) ++
    (match m.tags with
     | some ts => [("\"tags\":").toList ++ jsonStringArray (sortStrings ts)]
     | none => [])
  let fields : List (List Char) :=
    (("\"content\":").toList ++ jsonString (stringTake m.content 100)) ::
    (optionalFields ++
      [("\"hierarchyState\":").toList ++ natToDecimal mgr.getAllNodes.length,
       ("\"hierarchyVersion\":").toList ++ natToDecimal (getHierarchyVersion mgr)])
  '\x7b' :: commaJoin fields ++ ['\x7d']

/-- UTF-8 encoding of one character (`Buffer.from(string)`). -/
def utf8EncodeChar (c : Char) : List Nat :=
  let n := c.toNat
  if n < 128 then [n]
  else if n < 2048 then [192 + n / 64, 128 + n % 64]
  else if n < 65536 then [224 + n / 4096, 128 + n / 64 % 64, 128 + n % 64]
  else [240 + n / 262144, 128 + n / 4096 % 64, 128 + n / 64 % 64, 128 + n % 64]

def utf8Encode (l : List Char) : List Nat := (l.map utf8EncodeChar).flatten

/-- Standard base64 alphabet. -/
def base64Char (n : Nat) : Char :=
  if n < 26 then Char.ofNat (65 + n)
  else if n < 52 then Char.ofNat (97 + (n - 26))
  else if n < 62 then Char.ofNat (48 + (n - 52))
  else if n = 62 then '+'
  else '/'

/-- Standard base64 encoding with padding (`Buffer.toString('base64')`). -/
def base64Encode : List Nat → List Char
  | [] => []
  | [a] => [base64Char (a / 4), base64Char (a % 4 * 16), '=', '=']
  | [a, b] => [base64Char (a / 4), base64Char (a % 4 * 16 + b / 16),
      base64Char (b % 16 * 4), '=']
  | a :: b :: c :: rest =>
    base64Char (a / 4) :: base64Char (a % 4 * 16 + b / 16) ::
      base64Char (b % 16 * 4 + c / 64) :: base64Char (c % 64) :: base64Encode rest

/-- generateCacheKey: the first 32 base64 characters of the UTF-8 JSON
rendering of the key data. -/
def generateCacheKey (mgr : CategoryHierarchyManager) (m : MemoryMetadata) :
    String :=
  String.mk ((base64Encode (utf8Encode (cacheKeyJson mgr m))).take 32)

/-- The extractCategories caching flow on the success path: serve the
cache when a key hit exists and normalization is enabled; otherwise run
performExtraction and cache the result when normalization is enabled.
Returns the result and the updated cache. -/
def extractCategoriesCached (mgr : CategoryHierarchyManager)
    (eng : RegexEngine) (tmo : Nat → Nat → Bool)
    (rules : List CategoryExtractionRule) (cfg : CategoryExtractionConfig)
    (cache : List (String × CategoryExtractionResult)) (m : MemoryMetadata) :
    CategoryExtractionResult × List (String × CategoryExtractionResult) :=
  let cacheKey := generateCacheKey mgr m
  match mapGet cache cacheKey, cfg.enableCategoryNormalization with
  | some cached, true => (cached, cache)
  | _, _ =>
    let result := performExtraction mgr eng tmo rules cfg m
    (result, if cfg.enableCategoryNormalization then mapSet cache cacheKey result else cache)

/-- The extractCategories try/catch: the internal extraction outcome is
passed explicitly (`Except.error` models a throw anywhere inside the
awaited performExtraction); on error the fallback result is returned and
nothing is cached. -/
def extractCategoriesWith (mgr : CategoryHierarchyManager)
    (rules : List CategoryExtractionRule) (cfg : CategoryExtractionConfig)
    (cache : List (String × CategoryExtractionResult)) (m : MemoryMetadata)
    (internal : Except String CategoryExtractionResult) :
    CategoryExtractionResult × List (String × CategoryExtractionResult) :=
  let cacheKey := generateCacheKey mgr m
  match mapGet cache cacheKey, cfg.enableCategoryNormalization with
  | some cached, true => (cached, cache)
  | _, _ =>
    match internal with
    | .ok result =>
      (result, if cfg.enableCategoryNormalization then mapSet cache cacheKey result else cache)
    | .error _ => (createFallbackResult mgr rules cfg m, cache)

/-! ## Constructor and rule mutation -/

/-- The predefined extraction rules, in declaration order. -/
def predefinedPatterns : List CategoryExtractionRule :=
  [{ name := "programming_languages"
     pattern := .regex "\\b(javascript|typescript|python|java|c\\+\\+|c#|go|rust|php|ruby|swift|kotlin)\\b" false true
     category := "Languages"
     hierarchySuggestion := some "Programming/Languages"
     hierarchical := true
     confidence := 4/5
     priority := 10
     enabled := true },
   { name := "frameworks"
     pattern := .regex "\\b(react|angular|vue|express|django|flask|spring|laravel|fastapi)\\b" false true
     category := "Frameworks"
     hierarchySuggestion := some "Programming/Frameworks"
     hierarchical := true
     confidence := 4/5
     priority := 9
     enabled := true },
   { name := "databases"
     pattern := .regex "\\b(mongodb|mysql|postgresql|sqlite|redis|elasticsearch|cassandra)\\b" false true
     category := "Databases"
     hierarchySuggestion := some "Technology/Databases"
     hierarchical := true
     confidence := 4/5
     priority := 8
     enabled := true },
   { name := "cloud_platforms"
     pattern := .regex "\\b(aws|azure|gcp|google cloud|amazon web services|microsoft azure)\\b" false true
     category := "Cloud"
     hierarchySuggestion := some "Technology/Cloud"
     hierarchical := true
     confidence := 4/5
     priority := 7
     enabled := true },
   { name := "personal_info"
     pattern := .regex "\\b(preference|like|want|need|favorite|personal|experience)\\b" false true
     category := "Personal"
     hierarchySuggestion := some "Personal/Lifestyle"
     hierarchical := true
     confidence := 3/5
     priority := 5
     enabled := true },
   { name := "work_projects"
     pattern := .regex "\\b(project|work|task|deadline|meeting|client|team)\\b" false true
     category := "Work"
     hierarchySuggestion := some "Work/Projects"
     hierarchical := true
     confidence := 7/10
     priority := 6
     enabled := true },
   { name := "learning_education"
     pattern := .regex "\\b(learn|study|course|tutorial|education|skill|knowledge)\\b" false true
     category := "Education"
     hierarchySuggestion := some "Learning/Education"
     hierarchical := true
     confidence := 7/10
     priority := 6
     enabled := true },
   { name := "time_sensitive"
     pattern := .regex "\\b(urgent|important|asap|deadline|today|tomorrow|next week)\\b" false true
     category := "Time-Sensitive"
     hierarchySuggestion := some "Priority/Time-Sensitive"
     hierarchical := true
     confidence := 7/10
     priority := 8
     enabled := true }]

/-- The rule list built by the constructor: predefined rules concatenated
with the configured custom rules. -/
def constructorRules (cfg : CategoryExtractionConfig) :
    List CategoryExtractionRule :=
  predefinedPatterns ++ cfg.customExtractionRules

/-- Stable insert for the descending priority sort. -/
def insertPriorityDesc (x : CategoryExtractionRule) :
    List CategoryExtractionRule → List CategoryExtractionRule
  | [] => [x]
  | y :: ys => if y.priority < x.priority then x :: y :: ys else y :: insertPriorityDesc x ys

/-- `rules.sort((a, b) => b.priority - a.priority)` (stable). -/
def sortByPriorityDesc (l : List CategoryExtractionRule) :
    List CategoryExtractionRule :=
  l.foldl (fun acc x => insertPriorityDesc x acc) []

/-- addExtractionRule: push then sort by priority descending. -/
def addExtractionRule (rules : List CategoryExtractionRule)
    (rule : CategoryExtractionRule) : List CategoryExtractionRule :=
  sortByPriorityDesc (rules ++ [rule])

/-- removeExtractionRule: splice out the first rule with the given name;
the boolean reports whether one was found. -/
def removeExtractionRule : List CategoryExtractionRule → String →
    List CategoryExtractionRule × Bool
  | [], _ => ([], false)
  | r :: rest, ruleName =>
    if r.name = ruleName then (rest, true)
    else
      let p := removeExtractionRule rest ruleName
      (r :: p.1, p.2)

end Memori

namespace Memori

/-! ## Loop analysis of findMatches (claims C2, C6, C7) -/

/-- Termination measure of the findMatches loop: every continuing
iteration either raises the match count (cap 50) or raises the
consecutive-empty count (cap 3 before aborting). -/
def findMeasure (s : FindState) : Nat :=
  (50 - s.matchCount) * 5 + (4 - s.consecEmpty)

/-- What one loop step does to the state: the iteration count grows by at
most one, and the results either stay unchanged or receive exactly one
match of the clamped-confidence shape. -/
def FindStepSpec (text : String) (rule : CategoryExtractionRule)
    (s t : FindState) : Prop :=
  t.iters ≤ s.iters + 1 ∧
  (t.results = s.results ∧ t.matchCount = s.matchCount ∨
   s.matchCount < 50 ∧ t.matchCount = s.matchCount + 1 ∧
     ∃ idx mstr, t.results = s.results ++
       [⟨rule.category,
         min (rule.confidence * calculatePositionConfidence idx text.length) 1,
         mstr, idx⟩])

theorem findStep_inl_spec {eng : RegexEngine} {tmo : Nat → Bool} {text : String}
    {rule : CategoryExtractionRule} {s t : FindState}
    (h : findStep eng tmo text rule s = Sum.inl t) : FindStepSpec text rule s t := by
  unfold findStep at h
  split at h
  · cases h
    exact ⟨Nat.le_succ _, Or.inl ⟨rfl, rfl⟩⟩
  · split_ifs at h <;> cases h <;>
      first
        | exact ⟨Nat.le_succ _, Or.inl ⟨rfl, rfl⟩⟩
        | exact ⟨le_refl _, Or.inl ⟨rfl, rfl⟩⟩
        | exact ⟨le_refl _, Or.inr ⟨by omega, rfl, _, _, rfl⟩⟩

theorem findStep_inr_spec {eng : RegexEngine} {tmo : Nat → Bool} {text : String}
    {rule : CategoryExtractionRule} {s t : FindState}
    (h : findStep eng tmo text rule s = Sum.inr t) :
    FindStepSpec text rule s t ∧ findMeasure t < findMeasure s := by
  unfold findStep at h
  split at h
  · cases h
  · split_ifs at h <;> cases h <;>
      first
        | exact ⟨⟨le_refl _, Or.inl ⟨rfl, rfl⟩⟩, by simp only [findMeasure]; omega⟩
        | exact ⟨⟨le_refl _, Or.inr ⟨by omega, rfl, _, _, rfl⟩⟩,
            by simp only [findMeasure]; omega⟩

theorem findGo_iters_le (eng : RegexEngine) (tmo : Nat → Bool) (text : String)
    (rule : CategoryExtractionRule) :
    ∀ fuel s, (findGo eng tmo text rule fuel s).iters ≤ s.iters + findMeasure s + 1 := by
  intro fuel
  induction fuel with
  | zero => intro s; simp [findGo]; omega
  | succ f ih =>
    intro s
    cases hstep : findStep eng tmo text rule s with
    | inl d =>
      have hgo : findGo eng tmo text rule (f + 1) s = d := by
        simp [findGo, hstep]
      rw [hgo]
      have := (findStep_inl_spec hstep).1
      omega
    | inr s' =>
      have hgo : findGo eng tmo text rule (f + 1) s = findGo eng tmo text rule f s' := by
        simp [findGo, hstep]
      rw [hgo]
      obtain ⟨hspec, hmeas⟩ := findStep_inr_spec hstep
      have h1 := hspec.1
      have := ih s'
      omega

theorem findGo_stable (eng : RegexEngine) (tmo : Nat → Bool) (text : String)
    (rule : CategoryExtractionRule) :
    ∀ f g s, findMeasure s < f → findMeasure s < g →
      findGo eng tmo text rule f s = findGo eng tmo text rule g s := by
  intro f
  induction f with
  | zero => intro g s hf; omega
  | succ f ih =>
    intro g s hf hg
    cases g with
    | zero => omega
    | succ g' =>
      cases hstep : findStep eng tmo text rule s with
      | inl d =>
        have h1 : findGo eng tmo text rule (f + 1) s = d := by
          simp [findGo, hstep]
        have h2 : findGo eng tmo text rule (g' + 1) s = d := by
          simp [findGo, hstep]
        rw [h1, h2]
      | inr s' =>
        have h1 : findGo eng tmo text rule (f + 1) s = findGo eng tmo text rule f s' := by
          simp [findGo, hstep]
        have h2 : findGo eng tmo text rule (g' + 1) s = findGo eng tmo text rule g' s' := by
          simp [findGo, hstep]
        rw [h1, h2]
        have hmeas := (findStep_inr_spec hstep).2
        exact ih g' s' (by omega) (by omega)

theorem findGo_count_inv (eng : RegexEngine) (tmo : Nat → Bool) (text : String)
    (rule : CategoryExtractionRule) :
    ∀ fuel s, s.results.length = s.matchCount → s.matchCount ≤ 50 →
      (findGo eng tmo text rule fuel s).results.length =
        (findGo eng tmo text rule fuel s).matchCount ∧
      (findGo eng tmo text rule fuel s).matchCount ≤ 50 := by
  intro fuel
  induction fuel with
  | zero => intro s h1 h2; simpa [findGo] using ⟨h1, h2⟩
  | succ f ih =>
    intro s h1 h2
    cases hstep : findStep eng tmo text rule s with
    | inl d =>
      have hgo : findGo eng tmo text rule (f + 1) s = d := by
        simp [findGo, hstep]
      rw [hgo]
      rcases (findStep_inl_spec hstep).2 with ⟨hr, hc⟩ | ⟨h50, hc, idx, mstr, hr⟩
      · rw [hr, hc]; exact ⟨h1, h2⟩
      · rw [hr, hc]
        constructor
        · simp [h1]
        · omega
    | inr s' =>
      have hgo : findGo eng tmo text rule (f + 1) s = findGo eng tmo text rule f s' := by
        simp [findGo, hstep]
      rw [hgo]
      obtain ⟨⟨_, hcase⟩, _⟩ := findStep_inr_spec hstep
      rcases hcase with ⟨hr, hc⟩ | ⟨h50, hc, idx, mstr, hr⟩
      · exact ih s' (by rw [hr, hc]; exact h1) (by omega)
      · exact ih s' (by rw [hr, hc]; simp [h1]) (by omega)

theorem findGo_mem_shape (eng : RegexEngine) (tmo : Nat → Bool) (text : String)
    (rule : CategoryExtractionRule) :
    ∀ fuel s,
      (∀ r ∈ s.results, r.category = rule.category ∧
        r.confidence = min (rule.confidence * calculatePositionConfidence r.matchPosition text.length) 1) →
      ∀ r ∈ (findGo eng tmo text rule fuel s).results,
        r.category = rule.category ∧
        r.confidence = min (rule.confidence * calculatePositionConfidence r.matchPosition text.length) 1 := by
  intro fuel
  induction fuel with
  | zero => intro s hs; simpa [findGo] using hs
  | succ f ih =>
    intro s hs
    have hpush : ∀ t : FindState, FindStepSpec text rule s t →
        ∀ r ∈ t.results, r.category = rule.category ∧
          r.confidence = min (rule.confidence * calculatePositionConfidence r.matchPosition text.length) 1 := by
      intro t hspec r hr
      rcases hspec.2 with ⟨hres, _⟩ | ⟨_, _, idx, mstr, hres⟩
      · exact hs r (hres ▸ hr)
      · rw [hres] at hr
        rcases List.mem_append.mp hr with hr | hr
        · exact hs r hr
        · rcases List.mem_singleton.mp hr with rfl
          exact ⟨rfl, rfl⟩
    cases hstep : findStep eng tmo text rule s with
    | inl d =>
      have hgo : findGo eng tmo text rule (f + 1) s = d := by
        simp [findGo, hstep]
      rw [hgo]
      exact hpush d (findStep_inl_spec hstep)
    | inr s' =>
      have hgo : findGo eng tmo text rule (f + 1) s = findGo eng tmo text rule f s' := by
        simp [findGo, hstep]
      rw [hgo]
      exact ih s' (hpush s' (findStep_inr_spec hstep).1)

/-- Claim C2 (termination of the match loop under adversarial matchers).
For every regex-engine behavior, every wall-clock oracle, every text and
every rule, the findMatches loop performs at most 255 body iterations
before one of its guards (match cap 50, time budget, consecutive
zero-width bound 3, stuck position, end of string, or no further match)
ends it, and the loop's value is independent of any fuel of at least 255:
the embedding's fuel of 256 is never exhausted, so extraction
terminates. -/
theorem C2_findMatches_terminates (eng : RegexEngine) (tmo : Nat → Bool)
    (text : String) (rule : CategoryExtractionRule) :
    (findGo eng tmo text rule 256 findInit).iters ≤ 255 ∧
    ∀ fuel, 255 ≤ fuel →
      findGo eng tmo text rule fuel findInit = findGo eng tmo text rule 256 findInit := by
  constructor
  · have := findGo_iters_le eng tmo text rule 256 findInit
    simpa [findInit, findMeasure] using this
  · intro fuel hfuel
    exact findGo_stable eng tmo text rule fuel 256 findInit
      (by simp [findInit, findMeasure]; omega) (by simp [findInit, findMeasure])

/-- Witness for C2 at a concrete engine, oracle, text and rule. -/
theorem C2_findMatches_terminates_witness :
    findGo (fun _ _ _ _ => none) (fun _ => false) "hello"
        { name := "w", pattern := .str "x", category := "X",
          confidence := 1, priority := 1, enabled := true } 300 findInit =
      findGo (fun _ _ _ _ => none) (fun _ => false) "hello"
        { name := "w", pattern := .str "x", category := "X",
          confidence := 1, priority := 1, enabled := true } 256 findInit := by
  exact (C2_findMatches_terminates (fun _ _ _ _ => none) (fun _ => false) "hello"
    { name := "w", pattern := .str "x", category := "X",
      confidence := 1, priority := 1, enabled := true }).2 300 (by norm_num)

/-- Claim C7 (hard cap on matches per rule).  For every engine behavior,
oracle, text and rule, findMatches returns at most 50 matches. -/
theorem C7_findMatches_le_50 (eng : RegexEngine) (tmo : Nat → Bool)
    (text : String) (rule : CategoryExtractionRule) :
    (findMatches eng tmo text rule).length ≤ 50 := by
  unfold findMatches
  split
  · simp
  · have := findGo_count_inv eng tmo text rule 256 findInit rfl (by decide)
    omega

/-! ## Claim C6: per-match confidence -/

/-- Claim C6, amended.  Every match produced by findMatches has
confidence `min(rule.confidence * positionBoost, 1.0)` — the code clamps
at 1.0, and the boost is exactly 1.2 (not greater) in the first 10% of
the text, and 0.6 at and past the midpoint. -/
theorem C6_confidence_clamped (eng : RegexEngine) (tmo : Nat → Bool)
    (text : String) (rule : CategoryExtractionRule) :
    (∀ r ∈ findMatches eng tmo text rule,
      r.confidence =
        min (rule.confidence * calculatePositionConfidence r.matchPosition text.length) 1) ∧
    (∀ p L : Nat, 0 < L →
      ((p : ℚ) / (L : ℚ) < 1/10 → calculatePositionConfidence p L = 6/5) ∧
      (1/2 ≤ (p : ℚ) / (L : ℚ) → calculatePositionConfidence p L = 3/5)) := by
  constructor
  · intro r hr
    unfold findMatches at hr
    split at hr
    · simp at hr
    · exact (findGo_mem_shape eng tmo text rule 256 findInit (by simp [findInit]) r hr).2
  · intro p L hL
    have hL0 : L ≠ 0 := Nat.pos_iff_ne_zero.mp hL
    constructor
    · intro hrel
      simp only [calculatePositionConfidence, hL0, if_false]
      rw [if_pos hrel]
    · intro hrel
      simp only [calculatePositionConfidence, hL0, if_false]
      rw [if_neg (by linarith), if_neg (by linarith), if_neg (by linarith)]

/-- Concrete engine for the C6 witness: one two-character match at the
start of the text. -/
def engC6W : RegexEngine := fun _ _ _ start => if start = 0 then some (0, "xy") else none

def ruleC6W : CategoryExtractionRule :=
  { name := "w", pattern := .str "xy", category := "X",
    confidence := 1/2, priority := 1, enabled := true }

/-- Witness for C6 on a concrete run producing one match. -/
theorem C6_confidence_clamped_witness :
    (⟨"X", min ((1/2 : ℚ) * calculatePositionConfidence 0 ("xy" : String).length) 1,
        "xy", 0⟩ : PatternMatch) ∈ findMatches engC6W (fun _ => false) "xy" ruleC6W ∧
    (⟨"X", min ((1/2 : ℚ) * calculatePositionConfidence 0 ("xy" : String).length) 1,
        "xy", 0⟩ : PatternMatch).confidence =
      min (ruleC6W.confidence *
        calculatePositionConfidence
          (⟨"X", min ((1/2 : ℚ) * calculatePositionConfidence 0 ("xy" : String).length) 1,
            "xy", 0⟩ : PatternMatch).matchPosition ("xy" : String).length) 1 := by
  have hmem : (⟨"X", min ((1/2 : ℚ) * calculatePositionConfidence 0 ("xy" : String).length) 1,
      "xy", 0⟩ : PatternMatch) ∈ findMatches engC6W (fun _ => false) "xy" ruleC6W := by
    have hlist : findMatches engC6W (fun _ => false) "xy" ruleC6W =
        [⟨"X", min ((1/2 : ℚ) * calculatePositionConfidence 0 ("xy" : String).length) 1,
          "xy", 0⟩] := rfl
    rw [hlist]
    exact List.mem_singleton.mpr rfl
  exact ⟨hmem,
    (C6_confidence_clamped engC6W (fun _ => false) "xy" ruleC6W).1 _ hmem⟩

/-- Concrete engine for the C6 counterexample: one three-character match
at position 0 of a twenty-character text. -/
def engC6C : RegexEngine := fun _ _ _ start => if start = 0 then some (0, "abc") else none

def ruleC6C : CategoryExtractionRule :=
  { name := "c", pattern := .str "p", category := "X",
    confidence := 9/10, priority := 1, enabled := true }

/-- Counterexample to claim C6 as stated: a rule of confidence 0.9
matching at position 0 of a 20-character text (within the first 10%)
yields confidence 1.0 by the code's clamp, yet the claim would force
confidence = 0.9 x boost with boost > 1.2, hence more than 1.08; no such
boost exists.  The boost at that offset is also exactly 1.2, not greater
than 1.2. -/
theorem C6_boost_counterexample :
    (findMatches engC6C (fun _ => false) "aaaaaaaaaaaaaaaaaaaa" ruleC6C).map
      PatternMatch.confidence = [1] ∧
    (0 : ℚ) / ((20 : Nat) : ℚ) < 1/10 ∧
    calculatePositionConfidence 0 20 = 6/5 ∧
    ¬ ∃ b : ℚ, 6/5 < b ∧ (1 : ℚ) = 9/10 * b := by
  have hpos : calculatePositionConfidence 0 20 = 6/5 := by
    simp only [calculatePositionConfidence]
    norm_num
  refine ⟨?_, by norm_num, hpos, ?_⟩
  · have hlist : findMatches engC6C (fun _ => false) "aaaaaaaaaaaaaaaaaaaa" ruleC6C =
        [⟨"X", min ((9/10 : ℚ) *
          calculatePositionConfidence 0 ("aaaaaaaaaaaaaaaaaaaa" : String).length) 1,
          "abc", 0⟩] := rfl
    rw [hlist]
    simp only [List.map_cons, List.map_nil]
    have hlen : ("aaaaaaaaaaaaaaaaaaaa" : String).length = 20 := rfl
    rw [hlen, hpos]
    norm_num
  · rintro ⟨b, hb, he⟩
    have hbv : b = 10/9 := by linarith
    rw [hbv] at hb
    norm_num at hb

/-! ## Claim C4: shape of the returned category list -/

theorem insertConfDesc_mem (x : ExtractedCategory) (l : List ExtractedCategory) :
    ∀ z, z ∈ insertConfDesc x l ↔ z = x ∨ z ∈ l := by
  induction l with
  | nil => intro z; simp [insertConfDesc]
  | cons y ys ih =>
    intro z
    simp only [insertConfDesc]
    split_ifs with hc
    · simp
    · simp only [List.mem_cons, ih z]
      tauto

theorem insertConfDesc_pairwise (x : ExtractedCategory) (l : List ExtractedCategory)
    (h : l.Pairwise (fun a b => b.confidence ≤ a.confidence)) :
    (insertConfDesc x l).Pairwise (fun a b => b.confidence ≤ a.confidence) := by
  induction l with
  | nil => simp [insertConfDesc]
  | cons y ys ih =>
    simp only [insertConfDesc]
    rcases List.pairwise_cons.mp h with ⟨hy, hys⟩
    split_ifs with hc
    · refine List.pairwise_cons.mpr ⟨?_, h⟩
      intro z hz
      rcases List.mem_cons.mp hz with rfl | hz
      · exact le_of_lt hc
      · exact le_trans (hy z hz) (le_of_lt hc)
    · refine List.pairwise_cons.mpr ⟨?_, ih hys⟩
      intro z hz
      rcases (insertConfDesc_mem x ys z).mp hz with rfl | hz
      · exact not_lt.mp hc
      · exact hy z hz

theorem sortByConfDesc_pairwise (l : List ExtractedCategory) :
    (sortByConfDesc l).Pairwise (fun a b => b.confidence ≤ a.confidence) := by
  have hgen : ∀ (l acc : List ExtractedCategory),
      acc.Pairwise (fun a b => b.confidence ≤ a.confidence) →
      (l.foldl (fun acc x => insertConfDesc x acc) acc).Pairwise
        (fun a b => b.confidence ≤ a.confidence) := by
    intro l
    induction l with
    | nil => intro acc h; simpa using h
    | cons x xs ih =>
      intro acc h
      exact ih (insertConfDesc x acc) (insertConfDesc_pairwise x acc h)
  exact hgen l [] List.Pairwise.nil

theorem sortByConfDesc_mem (l : List ExtractedCategory) :
    ∀ z ∈ sortByConfDesc l, z ∈ l := by
  have hgen : ∀ (l acc : List ExtractedCategory) (z : ExtractedCategory),
      z ∈ l.foldl (fun acc x => insertConfDesc x acc) acc → z ∈ acc ∨ z ∈ l := by
    intro l
    induction l with
    | nil => intro acc z h; exact Or.inl h
    | cons x xs ih =>
      intro acc z h
      rcases ih (insertConfDesc x acc) z h with h' | h'
      · rcases (insertConfDesc_mem x acc z).mp h' with rfl | h''
        · exact Or.inr (List.mem_cons_self _ _)
        · exact Or.inl h''
      · exact Or.inr (List.mem_cons_of_mem _ h')
  intro z hz
  rcases hgen l [] z hz with h | h
  · simp at h
  · exact h

/-- Claim C4 (successful extraction output contract).  The category list
returned by performExtraction is sorted by confidence descending,
contains only categories at or above the confidence threshold, respects
maxCategoriesPerMemory, and the primary category is the first returned
name, or General when none survives. -/
theorem C4_extraction_output_contract (mgr : CategoryHierarchyManager)
    (eng : RegexEngine) (tmo : Nat → Nat → Bool)
    (rules : List CategoryExtractionRule) (cfg : CategoryExtractionConfig)
    (m : MemoryMetadata) :
    ((performExtraction mgr eng tmo rules cfg m).categories).Pairwise
      (fun a b => b.confidence ≤ a.confidence) ∧
    (∀ c ∈ (performExtraction mgr eng tmo rules cfg m).categories,
      cfg.confidenceThreshold ≤ c.confidence) ∧
    (performExtraction mgr eng tmo rules cfg m).categories.length ≤
      cfg.maxCategoriesPerMemory ∧
    (performExtraction mgr eng tmo rules cfg m).primaryCategory =
      (match (performExtraction mgr eng tmo rules cfg m).categories with
       | [] => "General"
       | c :: _ => c.name) := by
  refine ⟨?_, ?_, ?_, ?_⟩
  · show (((sortByConfDesc _).filter _).take _).Pairwise _
    exact ((sortByConfDesc_pairwise _).sublist
      ((List.take_sublist _ _).trans (List.filter_sublist _)))
  · intro c hc
    have hc' := List.mem_of_mem_take hc
    have := List.mem_filter.mp hc'
    exact of_decide_eq_true this.2
  · show (((sortByConfDesc _).filter _).take _).length ≤ _
    rw [List.length_take]
    exact min_le_left _ _
  · rfl

/-! ## Claim C8: rule-list ordering -/

theorem insertPriorityDesc_mem (x : CategoryExtractionRule)
    (l : List CategoryExtractionRule) :
    ∀ z, z ∈ insertPriorityDesc x l ↔ z = x ∨ z ∈ l := by
  induction l with
  | nil => intro z; simp [insertPriorityDesc]
  | cons y ys ih =>
    intro z
    simp only [insertPriorityDesc]
    split_ifs with hc
    · simp
    · simp only [List.mem_cons, ih z]
      tauto

theorem insertPriorityDesc_pairwise (x : CategoryExtractionRule)
    (l : List CategoryExtractionRule)
    (h : l.Pairwise (fun a b => b.priority ≤ a.priority)) :
    (insertPriorityDesc x l).Pairwise (fun a b => b.priority ≤ a.priority) := by
  induction l with
  | nil => simp [insertPriorityDesc]
  | cons y ys ih =>
    simp only [insertPriorityDesc]
    rcases List.pairwise_cons.mp h with ⟨hy, hys⟩
    split_ifs with hc
    · refine List.pairwise_cons.mpr ⟨?_, h⟩
      intro z hz
      rcases List.mem_cons.mp hz with rfl | hz
      · exact le_of_lt hc
      · exact le_trans (hy z hz) (le_of_lt hc)
    · refine List.pairwise_cons.mpr ⟨?_, ih hys⟩
      intro z hz
      rcases (insertPriorityDesc_mem x ys z).mp hz with rfl | hz
      · exact not_lt.mp hc
      · exact hy z hz

theorem sortByPriorityDesc_pairwise (l : List CategoryExtractionRule) :
    (sortByPriorityDesc l).Pairwise (fun a b => b.priority ≤ a.priority) := by
  have hgen : ∀ (l acc : List CategoryExtractionRule),
      acc.Pairwise (fun a b => b.priority ≤ a.priority) →
      (l.foldl (fun acc x => insertPriorityDesc x acc) acc).Pairwise
        (fun a b => b.priority ≤ a.priority) := by
    intro l
    induction l with
    | nil => intro acc h; simpa using h
    | cons x xs ih =>
      intro acc h
      exact ih (insertPriorityDesc x acc) (insertPriorityDesc_pairwise x acc h)
  exact hgen l [] List.Pairwise.nil

theorem removeExtractionRule_sublist (l : List CategoryExtractionRule) (n : String) :
    (removeExtractionRule l n).1.Sublist l := by
  induction l with
  | nil => simp [removeExtractionRule]
  | cons r rest ih =>
    simp only [removeExtractionRule]
    split_ifs with hn
    · exact List.sublist_cons_self r rest
    · exact List.Sublist.cons₂ r ih

/-- Claim C8, amended.  Every addExtractionRule call leaves the rule list
sorted by priority descending, and removeExtractionRule preserves that
order; the constructor, however, merely concatenates the predefined rules
with the custom rules without sorting. -/
theorem C8_rule_order_amended :
    (∀ (rules : List CategoryExtractionRule) (r : CategoryExtractionRule),
      (addExtractionRule rules r).Pairwise (fun a b => b.priority ≤ a.priority)) ∧
    (∀ (rules : List CategoryExtractionRule) (n : String),
      rules.Pairwise (fun a b => b.priority ≤ a.priority) →
      ((removeExtractionRule rules n).1).Pairwise (fun a b => b.priority ≤ a.priority)) := by
  constructor
  · intro rules r
    exact sortByPriorityDesc_pairwise (rules ++ [r])
  · intro rules n h
    exact h.sublist (removeExtractionRule_sublist rules n)

/-- Witness for C8 at concrete inputs. -/
theorem C8_rule_order_amended_witness :
    ((removeExtractionRule [ruleC6W] "w").1).Pairwise
      (fun a b => b.priority ≤ a.priority) :=
  C8_rule_order_amended.2 [ruleC6W] "w" (List.pairwise_singleton _ _)

/-- Counterexample to claim C8 as stated: the list built by the
constructor from the default configuration (the predefined rules alone)
is not priority-descending -- the rule of priority 5 (personal_info)
precedes the rule of priority 6 (work_projects). -/
theorem C8_constructor_counterexample :
    ¬ (constructorRules defaultConfig).Pairwise
      (fun a b => b.priority ≤ a.priority) := by
  intro h
  simp only [constructorRules, defaultConfig, predefinedPatterns, List.append_nil] at h
  rcases List.pairwise_cons.mp h with ⟨_, h⟩
  rcases List.pairwise_cons.mp h with ⟨_, h⟩
  rcases List.pairwise_cons.mp h with ⟨_, h⟩
  rcases List.pairwise_cons.mp h with ⟨_, h⟩
  rcases List.pairwise_cons.mp h with ⟨h5, _⟩
  have := h5 _ (List.mem_cons_self _ _)
  norm_num at this

/-! ## Claim C1: the fallback contract of extractCategories -/

/-- A trivial hierarchy manager for concrete runs. -/
def mgr0 : CategoryHierarchyManager :=
  { getNode := fun _ => none, getAllNodes := [], getAncestors := fun _ => [] }

/-- Claim C1, amended.  extractCategories never throws: when the internal
extraction fails (and no cached value is served), it returns the fallback
result unchanged-cache pair; the fallback result has a single category
whose name is the first entry of existingCategories — or General when
there is none or when the first entry is the empty string (JS falsiness
of `existingCategories?.[0] || 'General'`) — with confidence 0.3 at both
the category and the result level, and metadata `fallback: true`. -/
theorem C1_fallback_on_failure (mgr : CategoryHierarchyManager)
    (rules : List CategoryExtractionRule) (cfg : CategoryExtractionConfig)
    (cache : List (String × CategoryExtractionResult)) (m : MemoryMetadata)
    (err : String)
    (hmiss : mapGet cache (generateCacheKey mgr m) = none) :
    extractCategoriesWith mgr rules cfg cache m (Except.error err) =
      (createFallbackResult mgr rules cfg m, cache) ∧
    ∃ c, (createFallbackResult mgr rules cfg m).categories = [c] ∧
      c.name = (match m.existingCategories with
                | some (x :: _) => if x = "" then "General" else x
                | _ => "General") ∧
      c.confidence = 3/10 ∧
      c.source = CategorySource.metadata ∧
      (createFallbackResult mgr rules cfg m).confidence = 3/10 ∧
      (createFallbackResult mgr rules cfg m).primaryCategory = c.name ∧
      (createFallbackResult mgr rules cfg m).metadata.isFallback = true := by
  constructor
  · simp only [extractCategoriesWith, hmiss]
  · exact ⟨_, rfl, rfl, rfl, rfl, rfl, rfl, rfl⟩

/-- Witness for C1 at a concrete input with existing categories. -/
theorem C1_fallback_on_failure_witness :
    extractCategoriesWith mgr0 [] defaultConfig []
        { content := "hi", existingCategories := some ["Notes"] }
        (Except.error "boom") =
      (createFallbackResult mgr0 [] defaultConfig
        { content := "hi", existingCategories := some ["Notes"] }, []) ∧
    (createFallbackResult mgr0 [] defaultConfig
      { content := "hi", existingCategories := some ["Notes"] }).primaryCategory =
      "Notes" := by
  have h := C1_fallback_on_failure mgr0 [] defaultConfig []
    { content := "hi", existingCategories := some ["Notes"] } "boom" rfl
  exact ⟨h.1, rfl⟩

/-- Counterexample to claim C1 as stated: when the first entry of
existingCategories is the empty string, the fallback category is General,
not that first entry. -/
theorem C1_empty_first_entry_counterexample :
    (createFallbackResult mgr0 [] defaultConfig
      { content := "x", existingCategories := some [""] }).primaryCategory =
      "General" ∧ ("General" : String) ≠ "" := by
  exact ⟨rfl, by decide⟩

/-! ## Claim C9: scores stay in the unit interval -/

/-- Unit-interval bounds on both scores of an extracted category. -/
def ScoreBounds (c : ExtractedCategory) : Prop :=
  0 ≤ c.confidence ∧ c.confidence ≤ 1 ∧ 0 ≤ c.relevanceScore ∧ c.relevanceScore ≤ 1

theorem ite_nonneg_q (P : Prop) [inst : Decidable P] (x y : ℚ)
    (hx : 0 ≤ x) (hy : 0 ≤ y) : 0 ≤ (if P then x else y) := by
  split_ifs <;> assumption

theorem calculatePositionConfidence_nonneg (p L : Nat) :
    0 ≤ calculatePositionConfidence p L := by
  unfold calculatePositionConfidence
  dsimp only
  split_ifs <;> norm_num

theorem calcHRS_bounds (category : String) (node : Option CategoryNode)
    (m : MemoryMetadata) :
    0 ≤ calculateHierarchicalRelevanceScore category node m ∧
    calculateHierarchicalRelevanceScore category node m ≤ 1 := by
  unfold calculateHierarchicalRelevanceScore
  refine ⟨le_min ?_ (by norm_num), min_le_right _ _⟩
  apply add_nonneg
  apply add_nonneg
  apply add_nonneg
  · apply add_nonneg (by norm_num)
    exact le_min (by positivity) (by norm_num)
  · cases m.summary with
    | none => norm_num
    | some sm => exact ite_nonneg_q _ _ _ (by norm_num) le_rfl
  · exact ite_nonneg_q _ _ _ (by norm_num) le_rfl
  · cases node with
    | none => norm_num
    | some n =>
      exact ite_nonneg_q _ _ _
        (add_nonneg (by norm_num)
          (ite_nonneg_q _ _ _ (le_min (by positivity) (by norm_num)) le_rfl))
        le_rfl

theorem findMatches_conf_bounds (eng : RegexEngine) (tmo : Nat → Bool)
    (text : String) (rule : CategoryExtractionRule)
    (h0 : 0 ≤ rule.confidence) :
    ∀ r ∈ findMatches eng tmo text rule, 0 ≤ r.confidence ∧ r.confidence ≤ 1 := by
  intro r hr
  unfold findMatches at hr
  split at hr
  · simp at hr
  · have hshape := (findGo_mem_shape eng tmo text rule 256 findInit
      (by simp [findInit]) r hr).2
    rw [hshape]
    exact ⟨le_min (mul_nonneg h0 (calculatePositionConfidence_nonneg _ _)) (by norm_num),
      min_le_right _ _⟩

theorem mapSet_snd_mem {α : Type} :
    ∀ (acc : List (String × α)) (k : String) (v : α) (p : α),
      p ∈ (mapSet acc k v).map Prod.snd → p ∈ acc.map Prod.snd ∨ p = v := by
  intro acc
  induction acc with
  | nil => intro k v p hp; simp [mapSet] at hp; exact Or.inr hp
  | cons kv rest ih =>
    intro k v p hp
    obtain ⟨k', v'⟩ := kv
    simp only [mapSet] at hp
    split_ifs at hp with hk
    · simp only [List.map_cons, List.mem_cons] at hp
      rcases hp with rfl | hp
      · exact Or.inr rfl
      · exact Or.inl (by simp [hp])
    · simp only [List.map_cons, List.mem_cons] at hp
      rcases hp with rfl | hp
      · exact Or.inl (by simp)
      · rcases ih k v p hp with h | h
        · exact Or.inl (by simp [h])
        · exact Or.inr h

theorem dedupFold_snd_mem :
    ∀ (rs : List PatternMatch) (acc : List (String × PatternMatch)) (p : PatternMatch),
      p ∈ (dedupFold acc rs).map Prod.snd → p ∈ acc.map Prod.snd ∨ p ∈ rs := by
  intro rs
  induction rs with
  | nil => intro acc p hp; exact Or.inl hp
  | cons r rest ih =>
    intro acc p hp
    simp only [dedupFold] at hp
    rcases hcase : mapGet acc r.category with _ | existing
    · rw [hcase] at hp
      dsimp only at hp
      rcases ih _ p hp with h | h
      · rcases mapSet_snd_mem acc r.category r p h with h' | rfl
        · exact Or.inl h'
        · exact Or.inr (List.mem_cons_self _ _)
      · exact Or.inr (List.mem_cons_of_mem _ h)
    · rw [hcase] at hp
      dsimp only at hp
      split_ifs at hp with hconf
      · rcases ih _ p hp with h | h
        · rcases mapSet_snd_mem acc r.category r p h with h' | rfl
          · exact Or.inl h'
          · exact Or.inr (List.mem_cons_self _ _)
        · exact Or.inr (List.mem_cons_of_mem _ h)
      · rcases ih _ p hp with h | h
        · exact Or.inl h
        · exact Or.inr (List.mem_cons_of_mem _ h)

theorem extractFromPatterns_conf_bounds (eng : RegexEngine) (tmo : Nat → Nat → Bool)
    (rules : List CategoryExtractionRule) (m : MemoryMetadata)
    (hrules : ∀ r ∈ rules, 0 ≤ r.confidence) :
    ∀ p ∈ extractFromPatterns eng tmo rules m, 0 ≤ p.confidence ∧ p.confidence ≤ 1 := by
  intro p hp
  unfold extractFromPatterns at hp
  rcases dedupFold_snd_mem _ [] p hp with h | h
  · simp at h
  · unfold rawPatternResults at h
    rw [List.mem_flatten] at h
    obtain ⟨l, hl, hpl⟩ := h
    rw [List.mem_map] at hl
    obtain ⟨pair, hpair, rfl⟩ := hl
    have hmem : pair.2 ∈ rules.filter (·.enabled) := by
      have := List.enum_map_snd (rules.filter (·.enabled))
      rw [← this]
      exact List.mem_map_of_mem Prod.snd hpair
    have hr : pair.2 ∈ rules := List.mem_of_mem_filter hmem
    exact findMatches_conf_bounds eng (tmo pair.1) (buildSearchText m) pair.2
      (hrules pair.2 hr) p hpl

theorem mergeExistingCategories_bounds (mgr : CategoryHierarchyManager)
    (rules : List CategoryExtractionRule) (cfg : CategoryExtractionConfig)
    (m : MemoryMetadata) :
    ∀ (cats : List String) (acc : List (String × ExtractedCategory)),
      (∀ p ∈ acc.map Prod.snd, ScoreBounds p) →
      ∀ p ∈ (mergeExistingCategories mgr rules cfg m cats acc).map Prod.snd, ScoreBounds p := by
  intro cats
  induction cats with
  | nil => intro acc hacc p hp; exact hacc p hp
  | cons c cs ih =>
    intro acc hacc p hp
    simp only [mergeExistingCategories, List.foldl_cons] at hp
    refine ih _ ?_ p (by simpa [mergeExistingCategories] using hp)
    intro q hq
    rcases mapSet_snd_mem _ _ _ q hq with h | rfl
    · exact hacc q h
    · refine ⟨by norm_num, by norm_num, ?_, ?_⟩
      · exact (calcHRS_bounds _ _ _).1
      · exact (calcHRS_bounds _ _ _).2

theorem mergePatternResults_bounds (mgr : CategoryHierarchyManager)
    (rules : List CategoryExtractionRule) (cfg : CategoryExtractionConfig)
    (m : MemoryMetadata) :
    ∀ (ps : List PatternMatch) (acc : List (String × ExtractedCategory)),
      (∀ r ∈ ps, 0 ≤ r.confidence ∧ r.confidence ≤ 1) →
      (∀ p ∈ acc.map Prod.snd, ScoreBounds p) →
      ∀ p ∈ (mergePatternResults mgr rules cfg m ps acc).map Prod.snd, ScoreBounds p := by
  intro ps
  induction ps with
  | nil => intro acc _ hacc p hp; exact hacc p hp
  | cons r rest ih =>
    intro acc hps hacc p hp
    simp only [mergePatternResults, List.foldl_cons] at hp
    have hr := hps r (List.mem_cons_self _ _)
    have hrest : ∀ q ∈ rest, 0 ≤ q.confidence ∧ q.confidence ≤ 1 :=
      fun q hq => hps q (List.mem_cons_of_mem _ hq)
    refine ih _ hrest ?_ p (by simpa [mergePatternResults] using hp)
    intro q hq
    rcases hcase : mapGet acc (normalizeCategory cfg r.category) with _ | existing
    · rw [hcase] at hq
      dsimp only at hq
      rcases mapSet_snd_mem _ _ _ q hq with h | rfl
      · exact hacc q h
      · exact ⟨hr.1, hr.2, (calcHRS_bounds _ _ _).1, (calcHRS_bounds _ _ _).2⟩
    · rw [hcase] at hq
      dsimp only at hq
      split_ifs at hq with hconf
      · rcases mapSet_snd_mem _ _ _ q hq with h | rfl
        · exact hacc q h
        · exact ⟨hr.1, hr.2, (calcHRS_bounds _ _ _).1, (calcHRS_bounds _ _ _).2⟩
      · exact hacc q hq

theorem mergedCandidates_bounds (mgr : CategoryHierarchyManager) (eng : RegexEngine)
    (tmo : Nat → Nat → Bool) (rules : List CategoryExtractionRule)
    (cfg : CategoryExtractionConfig) (m : MemoryMetadata)
    (hrules : ∀ r ∈ rules, 0 ≤ r.confidence) :
    ∀ p ∈ (mergedCandidates mgr eng tmo rules cfg m).map Prod.snd, ScoreBounds p := by
  have hphase1 : ∀ p ∈ (metadataPhase mgr rules cfg m).map Prod.snd, ScoreBounds p := by
    unfold metadataPhase
    split_ifs with hmeta
    · cases m.existingCategories with
      | none => simp
      | some cats =>
        exact mergeExistingCategories_bounds mgr rules cfg m cats [] (by simp)
    · simp
  unfold mergedCandidates
  split_ifs with hpat
  · exact mergePatternResults_bounds mgr rules cfg m _ _
      (extractFromPatterns_conf_bounds eng tmo rules m hrules) hphase1
  · exact hphase1

theorem scaled_bounds {x q : ℚ} (hx : 0 ≤ x ∧ x ≤ 1) (hq0 : 0 ≤ q) (hq1 : q ≤ 1) :
    0 ≤ x * q ∧ x * q ≤ 1 :=
  ⟨mul_nonneg hx.1 hq0, by nlinarith [hx.1, hx.2]⟩

theorem applyHPEGo_bounds (cfg : CategoryExtractionConfig)
    (rules : List CategoryExtractionRule) :
    ∀ (cats : List ExtractedCategory) (k : Nat),
      (∀ c ∈ cats, ScoreBounds c) →
      ∀ c ∈ applyHPEGo cfg rules cats k, ScoreBounds c := by
  intro cats
  induction cats with
  | nil => intro k _ c hc; simp [applyHPEGo] at hc
  | cons cat rest ih =>
    intro k hcats c hc
    have hcat := hcats cat (List.mem_cons_self _ _)
    have hrest : ∀ c ∈ rest, ScoreBounds c :=
      fun c hc => hcats c (List.mem_cons_of_mem _ hc)
    simp only [applyHPEGo] at hc
    split_ifs at hc with h5
    · simp at hc
    · rcases hfind : rules.find? (fun r => r.enabled && r.hierarchical && r.category = cat.name)
        with _ | rule
      · rw [hfind] at hc
        exact ih k hrest c hc
      · rw [hfind] at hc
        dsimp only at hc
        rcases hsugg : truthyStr rule.hierarchySuggestion with _ | baseHierarchy
        · rw [hsugg] at hc
          exact ih k hrest c hc
        · rw [hsugg] at hc
          dsimp only at hc
          split_ifs at hc with hne
          · rcases List.mem_cons.mp hc with rfl | hc
            · refine ⟨?_, ?_, ?_, ?_⟩
              · exact (scaled_bounds ⟨hcat.1, hcat.2.1⟩ (by norm_num) (by norm_num)).1
              · exact (scaled_bounds ⟨hcat.1, hcat.2.1⟩ (by norm_num) (by norm_num)).2
              · exact (scaled_bounds ⟨hcat.2.2.1, hcat.2.2.2⟩ (by norm_num) (by norm_num)).1
              · exact (scaled_bounds ⟨hcat.2.2.1, hcat.2.2.2⟩ (by norm_num) (by norm_num)).2
            · exact ih (k + 1) hrest c hc
          · exact ih k hrest c hc

theorem suggestRelatedCategories_bounds (mgr : CategoryHierarchyManager)
    (cat : ExtractedCategory) (hcat : ScoreBounds cat) :
    ∀ c ∈ suggestRelatedCategories mgr cat, ScoreBounds c := by
  intro c hc
  unfold suggestRelatedCategories at hc
  rcases h1 : truthyStr cat.hierarchyPath with _ | hp
  · rw [h1] at hc
    simp at hc
  · rw [h1] at hc
    dsimp only at hc
    rcases h2 : mgr.getNode cat.name with _ | node
    · rw [h2] at hc
      simp at hc
    · rw [h2] at hc
      dsimp only at hc
      simp only [List.mem_append] at hc
      rcases hc with hc | hc
      · rw [List.mem_map] at hc
        obtain ⟨sib, _, rfl⟩ := hc
        refine ⟨?_, ?_, ?_, ?_⟩
        · exact (scaled_bounds ⟨hcat.1, hcat.2.1⟩ (by norm_num) (by norm_num)).1
        · exact (scaled_bounds ⟨hcat.1, hcat.2.1⟩ (by norm_num) (by norm_num)).2
        · exact (scaled_bounds ⟨hcat.2.2.1, hcat.2.2.2⟩ (by norm_num) (by norm_num)).1
        · exact (scaled_bounds ⟨hcat.2.2.1, hcat.2.2.2⟩ (by norm_num) (by norm_num)).2
      · split_ifs at hc
        · rcases hanc : (mgr.getAncestors cat.name).getLast? with _ | parent
          · rw [hanc] at hc
            simp at hc
          · rw [hanc] at hc
            rcases List.mem_singleton.mp hc with rfl
            refine ⟨?_, ?_, ?_, ?_⟩
            · exact (scaled_bounds ⟨hcat.1, hcat.2.1⟩ (by norm_num) (by norm_num)).1
            · exact (scaled_bounds ⟨hcat.1, hcat.2.1⟩ (by norm_num) (by norm_num)).2
            · exact (scaled_bounds ⟨hcat.2.2.1, hcat.2.2.2⟩ (by norm_num) (by norm_num)).1
            · exact (scaled_bounds ⟨hcat.2.2.1, hcat.2.2.2⟩ (by norm_num) (by norm_num)).2
        · simp at hc

/-- Claim C9.  Under the precondition that every configured rule's
confidence lies in the unit interval, every category in a
performExtraction result — and in the fallback result — has confidence
and relevanceScore in the unit interval. -/
theorem C9_scores_in_unit_interval (mgr : CategoryHierarchyManager)
    (eng : RegexEngine) (tmo : Nat → Nat → Bool)
    (rules : List CategoryExtractionRule) (cfg : CategoryExtractionConfig)
    (m : MemoryMetadata)
    (hrules : ∀ r ∈ rules, 0 ≤ r.confidence ∧ r.confidence ≤ 1) :
    (∀ c ∈ (performExtraction mgr eng tmo rules cfg m).categories,
      0 ≤ c.confidence ∧ c.confidence ≤ 1 ∧
      0 ≤ c.relevanceScore ∧ c.relevanceScore ≤ 1) ∧
    (∀ c ∈ (createFallbackResult mgr rules cfg m).categories,
      0 ≤ c.confidence ∧ c.confidence ≤ 1 ∧
      0 ≤ c.relevanceScore ∧ c.relevanceScore ≤ 1) := by
  constructor
  · intro c hc
    have h0 : ∀ p ∈ (mergedCandidates mgr eng tmo rules cfg m).map Prod.snd,
        ScoreBounds p :=
      mergedCandidates_bounds mgr eng tmo rules cfg m (fun r hr => (hrules r hr).1)
    set extracted0 := (mergedCandidates mgr eng tmo rules cfg m).map Prod.snd with hex0
    set expanded := (if cfg.enableHierarchicalExpansion then
        applyHierarchicalPatternExpansion cfg rules extracted0
      else []) with hexp
    have hexp_b : ∀ c ∈ expanded, ScoreBounds c := by
      rw [hexp]
      split_ifs
      · exact applyHPEGo_bounds cfg rules extracted0 0 h0
      · simp
    have hex1 : ∀ c ∈ extracted0 ++ expanded, ScoreBounds c := by
      intro c hc
      rcases List.mem_append.mp hc with h | h
      · exact h0 c h
      · exact hexp_b c h
    set suggestions := (if cfg.enableCategorySuggestions then
        (((extracted0 ++ expanded) ++ expanded).map (suggestRelatedCategories mgr)).flatten
      else []) with hsugg
    have hsugg_b : ∀ c ∈ suggestions, ScoreBounds c := by
      rw [hsugg]
      split_ifs
      · intro c hc
        rw [List.mem_flatten] at hc
        obtain ⟨l, hl, hcl⟩ := hc
        rw [List.mem_map] at hl
        obtain ⟨base, hbase, rfl⟩ := hl
        have hbase_b : ScoreBounds base := by
          rcases List.mem_append.mp hbase with h | h
          · exact hex1 base h
          · exact hexp_b base h
        exact suggestRelatedCategories_bounds mgr base hbase_b c hcl
      · simp
    have hall : ∀ c ∈ (extracted0 ++ expanded) ++ suggestions, ScoreBounds c := by
      intro c hc
      rcases List.mem_append.mp hc with h | h
      · exact hex1 c h
      · exact hsugg_b c h
    have hmem : c ∈ (extracted0 ++ expanded) ++ suggestions := by
      have hc' := List.mem_of_mem_take hc
      have hc'' := List.mem_filter.mp hc'
      exact sortByConfDesc_mem _ c hc''.1
    exact hall c hmem
  · intro c hc
    rcases List.mem_singleton.mp hc with rfl
    refine ⟨by norm_num, by norm_num, by norm_num, by norm_num⟩

def c9eng : RegexEngine := fun _ _ _ _ => none

def c9tmo : Nat → Nat → Bool := fun _ _ => false

def c9m : MemoryMetadata :=
  { content := "hello", existingCategories := some ["Work"] }

/-- The single category the default configuration with no rules extracts
from existingCategories = [Work] under the empty hierarchy. -/
def c9e : ExtractedCategory :=
  { name := "Work"
    hierarchyPath := (resolveCategoryHierarchy mgr0 [] defaultConfig "Work").map
      CategoryNode.fullPath
    confidence := 9/10
    source := .metadata
    normalizedName := normalizeCategory defaultConfig "Work"
    relevanceScore := calculateHierarchicalRelevanceScore "Work"
      (resolveCategoryHierarchy mgr0 [] defaultConfig "Work") c9m }

/-! ## Claim C5: the merge keeps the maximum confidence per name -/

/-- The existing-category entries contributing to a given normalized
key. -/
def c5MetaCands (cfg : CategoryExtractionConfig) (m : MemoryMetadata)
    (key : String) : List String :=
  if cfg.enableMetadataExtraction then
    (m.existingCategories.getD []).filter (fun c => normalizeCategory cfg c = key)
  else []

/-- Confidences of the pattern matches of a list contributing to a given
normalized key. -/
def patConfsAt (cfg : CategoryExtractionConfig) (key : String)
    (ps : List PatternMatch) : List ℚ :=
  (ps.filter (fun r => normalizeCategory cfg r.category = key)).map
    PatternMatch.confidence

/-- Confidences of all raw pattern matches (before duplicate removal)
contributing to a given normalized key. -/
def c5PatternConfs (eng : RegexEngine) (tmo : Nat → Nat → Bool)
    (rules : List CategoryExtractionRule) (cfg : CategoryExtractionConfig)
    (m : MemoryMetadata) (key : String) : List ℚ :=
  if cfg.enablePatternExtraction then
    patConfsAt cfg key (rawPatternResults eng tmo rules m)
  else []

/-- All candidate confidences produced for a normalized key: one 0.9 per
contributing existing category, plus every raw pattern-match
confidence. -/
def c5CandidateConfs (eng : RegexEngine) (tmo : Nat → Nat → Bool)
    (rules : List CategoryExtractionRule) (cfg : CategoryExtractionConfig)
    (m : MemoryMetadata) (key : String) : List ℚ :=
  (c5MetaCands cfg m key).map (fun _ => (9 : ℚ)/10) ++
    c5PatternConfs eng tmo rules cfg m key

theorem mapGet_mapSet_self {α : Type} :
    ∀ (acc : List (String × α)) (k : String) (v : α),
      mapGet (mapSet acc k v) k = some v := by
  intro acc
  induction acc with
  | nil => intro k v; simp [mapSet, mapGet]
  | cons kv rest ih =>
    intro k v
    obtain ⟨k', v'⟩ := kv
    simp only [mapSet]
    split_ifs with hk
    · simp [mapGet]
    · simp only [mapGet]
      rw [if_neg hk]
      exact ih k v

theorem mapGet_mapSet_ne {α : Type} :
    ∀ (acc : List (String × α)) (k : String) (v : α) (k' : String), k' ≠ k →
      mapGet (mapSet acc k v) k' = mapGet acc k' := by
  intro acc
  induction acc with
  | nil =>
    intro k v k' hk
    simp only [mapSet, mapGet]
    rw [if_neg (fun h => hk h.symm)]
  | cons kv rest ih =>
    intro k v k' hk
    obtain ⟨k0, v0⟩ := kv
    simp only [mapSet]
    split_ifs with h0
    · subst h0
      simp only [mapGet]
      rw [if_neg (fun h => hk h.symm), if_neg (fun h => hk h.symm)]
    · simp only [mapGet]
      split_ifs with h1
      · rfl
      · exact ih k v k' hk

theorem mapGet_mem_values {α : Type} :
    ∀ (acc : List (String × α)) (k : String) (v : α),
      mapGet acc k = some v → v ∈ acc.map Prod.snd := by
  intro acc
  induction acc with
  | nil => intro k v h; simp [mapGet] at h
  | cons kv rest ih =>
    intro k v h
    obtain ⟨k0, v0⟩ := kv
    simp only [mapGet] at h
    split_ifs at h with h0
    · simp only [Option.some.injEq] at h
      simp [h]
    · exact List.mem_cons_of_mem _ (ih k v h)

theorem mergeExisting_get_skip (mgr : CategoryHierarchyManager)
    (rules : List CategoryExtractionRule) (cfg : CategoryExtractionConfig)
    (m : MemoryMetadata) :
    ∀ (cats : List String) (acc : List (String × ExtractedCategory)) (key : String),
      (∀ c ∈ cats, normalizeCategory cfg c ≠ key) →
      mapGet (mergeExistingCategories mgr rules cfg m cats acc) key = mapGet acc key := by
  intro cats
  induction cats with
  | nil => intro acc key _; rfl
  | cons c cs ih =>
    intro acc key hne
    have hc := hne c (List.mem_cons_self _ _)
    have hcs : ∀ x ∈ cs, normalizeCategory cfg x ≠ key :=
      fun x hx => hne x (List.mem_cons_of_mem _ hx)
    simp only [mergeExistingCategories, List.foldl_cons]
    rw [show (mergeExistingCategories mgr rules cfg m cs) = fun acc =>
      cs.foldl _ acc from rfl] at ih
    have := ih (mapSet acc (normalizeCategory cfg c)
      { name := c
        hierarchyPath := (resolveCategoryHierarchy mgr rules cfg c).map CategoryNode.fullPath
        confidence := 9/10
        source := .metadata
        normalizedName := normalizeCategory cfg c
        relevanceScore := calculateHierarchicalRelevanceScore c
          (resolveCategoryHierarchy mgr rules cfg c) m }) key hcs
    rw [this]
    exact mapGet_mapSet_ne _ _ _ _ (fun h => hc h.symm)

theorem mergeExisting_get_hit (mgr : CategoryHierarchyManager)
    (rules : List CategoryExtractionRule) (cfg : CategoryExtractionConfig)
    (m : MemoryMetadata) :
    ∀ (cats : List String) (acc : List (String × ExtractedCategory)) (key : String),
      (∃ c ∈ cats, normalizeCategory cfg c = key) →
      ∃ e, mapGet (mergeExistingCategories mgr rules cfg m cats acc) key = some e ∧
        e.confidence = 9/10 ∧ e.source = CategorySource.metadata := by
  intro cats
  induction cats with
  | nil => intro acc key h; simp at h
  | cons c cs ih =>
    intro acc key hex
    by_cases hcs : ∃ x ∈ cs, normalizeCategory cfg x = key
    · simp only [mergeExistingCategories, List.foldl_cons]
      exact ih _ key hcs
    · have hc : normalizeCategory cfg c = key := by
        rcases hex with ⟨x, hx, hxk⟩
        rcases List.mem_cons.mp hx with rfl | hx
        · exact hxk
        · exact absurd ⟨x, hx, hxk⟩ hcs
      have hskip : ∀ x ∈ cs, normalizeCategory cfg x ≠ key := by
        intro x hx hxk
        exact hcs ⟨x, hx, hxk⟩
      simp only [mergeExistingCategories, List.foldl_cons]
      rw [show (cs.foldl _ _ : List (String × ExtractedCategory)) =
        mergeExistingCategories mgr rules cfg m cs _ from rfl]
      rw [mergeExisting_get_skip mgr rules cfg m cs _ key hskip]
      rw [← hc]
      exact ⟨_, mapGet_mapSet_self _ _ _, rfl, rfl⟩

theorem metadataPhase_get (mgr : CategoryHierarchyManager)
    (rules : List CategoryExtractionRule) (cfg : CategoryExtractionConfig)
    (m : MemoryMetadata) (key : String) (e : ExtractedCategory)
    (h : mapGet (metadataPhase mgr rules cfg m) key = some e) :
    e.confidence = 9/10 ∧ e.source = CategorySource.metadata ∧
    c5MetaCands cfg m key ≠ [] := by
  unfold metadataPhase at h
  split_ifs at h with hmeta
  · rcases hec : m.existingCategories with _ | cats
    · rw [hec] at h
      simp [mapGet] at h
    · rw [hec] at h
      dsimp only at h
      by_cases hex : ∃ c ∈ cats, normalizeCategory cfg c = key
      · obtain ⟨e', he', hconf, hsrc⟩ := mergeExisting_get_hit mgr rules cfg m cats [] key hex
        rw [he'] at h
        obtain rfl := Option.some.injEq _ _ ▸ h
        refine ⟨hconf, hsrc, ?_⟩
        simp only [c5MetaCands, hmeta, if_true, hec, Option.getD]
        intro hnil
        rcases hex with ⟨c, hc, hck⟩
        have := List.filter_eq_nil_iff.mp hnil c hc
        simp [hck] at this
      · have hskip : ∀ c ∈ cats, normalizeCategory cfg c ≠ key := by
          intro c hc hck
          exact hex ⟨c, hc, hck⟩
        rw [mergeExisting_get_skip mgr rules cfg m cats [] key hskip] at h
        simp [mapGet] at h
  · simp [mapGet] at h

theorem metadataPhase_get_none (mgr : CategoryHierarchyManager)
    (rules : List CategoryExtractionRule) (cfg : CategoryExtractionConfig)
    (m : MemoryMetadata) (key : String)
    (h : c5MetaCands cfg m key = []) :
    mapGet (metadataPhase mgr rules cfg m) key = none := by
  unfold metadataPhase
  unfold c5MetaCands at h
  split_ifs with hmeta
  · rw [if_pos hmeta] at h
    rcases hec : m.existingCategories with _ | cats
    · simp [mapGet]
    · rw [hec] at h
      dsimp only [Option.getD] at h
      have hskip : ∀ c ∈ cats, normalizeCategory cfg c ≠ key := by
        intro c hc hck
        have := List.filter_eq_nil_iff.mp h c hc
        simp [hck] at this
      dsimp only
      rw [mergeExisting_get_skip mgr rules cfg m cats [] key hskip]
      rfl
  · rfl

theorem metadataPhase_get_some (mgr : CategoryHierarchyManager)
    (rules : List CategoryExtractionRule) (cfg : CategoryExtractionConfig)
    (m : MemoryMetadata) (key : String)
    (h : c5MetaCands cfg m key ≠ []) :
    ∃ e, mapGet (metadataPhase mgr rules cfg m) key = some e ∧
      e.confidence = 9/10 ∧ e.source = CategorySource.metadata := by
  unfold c5MetaCands at h
  split_ifs at h with hmeta
  · rcases hec : m.existingCategories with _ | cats
    · rw [hec] at h
      simp at h
    · rw [hec] at h
      dsimp only [Option.getD] at h
      have hex : ∃ c ∈ cats, normalizeCategory cfg c = key := by
        rcases hfc : cats.filter (fun c => normalizeCategory cfg c = key) with _ | ⟨c, rest⟩
        · exact absurd hfc h
        · have hc : c ∈ cats.filter (fun c => normalizeCategory cfg c = key) := by
            rw [hfc]; exact List.mem_cons_self _ _
          have := List.mem_filter.mp hc
          exact ⟨c, this.1, of_decide_eq_true this.2⟩
      unfold metadataPhase
      rw [if_pos hmeta, hec]
      dsimp only
      exact mergeExisting_get_hit mgr rules cfg m cats [] key hex
  · exact absurd rfl h

theorem dedupFold_get_persist :
    ∀ (rs : List PatternMatch) (acc : List (String × PatternMatch))
      (k : String) (v : PatternMatch),
      mapGet acc k = some v → v.category = k →
      ∃ w, mapGet (dedupFold acc rs) k = some w ∧ w.category = k ∧
        v.confidence ≤ w.confidence := by
  intro rs
  induction rs with
  | nil => intro acc k v h hcat; exact ⟨v, h, hcat, le_refl _⟩
  | cons r rest ih =>
    intro acc k v h hcat
    simp only [dedupFold]
    by_cases hk : r.category = k
    · subst hk
      rw [h]
      dsimp only
      split_ifs with hconf
      · obtain ⟨w, hw, hwc, hwconf⟩ := ih (mapSet acc r.category r) r.category r
          (mapGet_mapSet_self _ _ _) rfl
        exact ⟨w, hw, hwc, le_trans (le_of_lt hconf) hwconf⟩
      · exact ih acc r.category v h hcat
    · rcases hcase : mapGet acc r.category with _ | existing
      · dsimp only
        obtain ⟨w, hw, hwc, hwconf⟩ := ih (mapSet acc r.category r) k v
          (by rw [mapGet_mapSet_ne _ _ _ _ (fun hkk => hk hkk.symm)]; exact h) hcat
        exact ⟨w, hw, hwc, hwconf⟩
      · dsimp only
        split_ifs with hconf
        · obtain ⟨w, hw, hwc, hwconf⟩ := ih (mapSet acc r.category r) k v
            (by rw [mapGet_mapSet_ne _ _ _ _ (fun hkk => hk hkk.symm)]; exact h) hcat
          exact ⟨w, hw, hwc, hwconf⟩
        · exact ih acc k v h hcat

theorem dedupFold_dominates :
    ∀ (rs : List PatternMatch) (acc : List (String × PatternMatch))
      (q : PatternMatch), q ∈ rs →
      (∀ v, mapGet acc q.category = some v → v.category = q.category) →
      ∃ w, mapGet (dedupFold acc rs) q.category = some w ∧
        w.category = q.category ∧ q.confidence ≤ w.confidence := by
  intro rs
  induction rs with
  | nil => intro acc q hq; simp at hq
  | cons r rest ih =>
    intro acc q hq hacc
    simp only [dedupFold]
    rcases List.mem_cons.mp hq with rfl | hq
    · rcases hcase : mapGet acc q.category with _ | existing
      · dsimp only
        exact dedupFold_get_persist rest _ q.category q (mapGet_mapSet_self _ _ _) rfl
      · dsimp only
        have hexc := hacc existing hcase
        split_ifs with hconf
        · exact dedupFold_get_persist rest _ q.category q (mapGet_mapSet_self _ _ _) rfl
        · obtain ⟨w, hw, hwc, hwconf⟩ := dedupFold_get_persist rest acc q.category existing
            hcase hexc
          exact ⟨w, hw, hwc, le_trans (not_lt.mp hconf) hwconf⟩
    · rcases hcase : mapGet acc r.category with _ | existing
      · dsimp only
        refine ih _ q hq ?_
        intro v hv
        by_cases hkk : q.category = r.category
        · rw [hkk, mapGet_mapSet_self] at hv
          obtain rfl := Option.some.injEq _ _ ▸ hv
          exact hkk.symm
        · rw [mapGet_mapSet_ne _ _ _ _ hkk] at hv
          exact hacc v hv
      · dsimp only
        split_ifs with hconf
        · refine ih _ q hq ?_
          intro v hv
          by_cases hkk : q.category = r.category
          · rw [hkk, mapGet_mapSet_self] at hv
            obtain rfl := Option.some.injEq _ _ ▸ hv
            exact hkk.symm
          · rw [mapGet_mapSet_ne _ _ _ _ hkk] at hv
            exact hacc v hv
        · exact ih acc q hq hacc

theorem dedupFold_values_dominate (rs : List PatternMatch) :
    ∀ q ∈ rs, ∃ p ∈ (dedupFold [] rs).map Prod.snd,
      p.category = q.category ∧ q.confidence ≤ p.confidence := by
  intro q hq
  obtain ⟨w, hw, hwc, hwconf⟩ := dedupFold_dominates rs [] q hq
    (by intro v hv; simp [mapGet] at hv)
  exact ⟨w, mapGet_mem_values _ _ _ hw, hwc, hwconf⟩

/-- The ExtractedCategory record that mergePatternResults builds from a
pattern match. -/
def c5Entry (mgr : CategoryHierarchyManager) (rules : List CategoryExtractionRule)
    (cfg : CategoryExtractionConfig) (m : MemoryMetadata) (r : PatternMatch) :
    ExtractedCategory :=
  { name := r.category
    hierarchyPath := (resolveCategoryHierarchy mgr rules cfg r.category).map
      CategoryNode.fullPath
    confidence := r.confidence
    source := .pattern
    normalizedName := normalizeCategory cfg r.category
    relevanceScore := calculateHierarchicalRelevanceScore r.category
      (resolveCategoryHierarchy mgr rules cfg r.category) m }

theorem mergePattern_cons (mgr : CategoryHierarchyManager)
    (rules : List CategoryExtractionRule) (cfg : CategoryExtractionConfig)
    (m : MemoryMetadata) (r : PatternMatch) (rest : List PatternMatch)
    (acc : List (String × ExtractedCategory)) :
    mergePatternResults mgr rules cfg m (r :: rest) acc =
      mergePatternResults mgr rules cfg m rest
        (match mapGet acc (normalizeCategory cfg r.category) with
         | some existing =>
           if existing.confidence < r.confidence then
             mapSet acc (normalizeCategory cfg r.category) (c5Entry mgr rules cfg m r)
           else acc
         | none =>
           mapSet acc (normalizeCategory cfg r.category) (c5Entry mgr rules cfg m r)) := by
  rfl

theorem patConfsAt_cons (cfg : CategoryExtractionConfig) (key : String)
    (r : PatternMatch) (ps : List PatternMatch) :
    patConfsAt cfg key (r :: ps) =
      if normalizeCategory cfg r.category = key then
        r.confidence :: patConfsAt cfg key ps
      else patConfsAt cfg key ps := by
  by_cases h : normalizeCategory cfg r.category = key
  · simp [patConfsAt, List.filter_cons, h]
  · simp [patConfsAt, List.filter_cons, h]

theorem mergePattern_get (mgr : CategoryHierarchyManager)
    (rules : List CategoryExtractionRule) (cfg : CategoryExtractionConfig)
    (m : MemoryMetadata) :
    ∀ (ps : List PatternMatch) (acc : List (String × ExtractedCategory))
      (key : String) (e : ExtractedCategory),
      mapGet (mergePatternResults mgr rules cfg m ps acc) key = some e →
      (mapGet acc key = some e ∧ ∀ q ∈ patConfsAt cfg key ps, q ≤ e.confidence) ∨
      (e.source = CategorySource.pattern ∧ e.confidence ∈ patConfsAt cfg key ps ∧
        (∀ q ∈ patConfsAt cfg key ps, q ≤ e.confidence) ∧
        ∀ e0, mapGet acc key = some e0 → e0.confidence < e.confidence) := by
  intro ps
  induction ps with
  | nil =>
    intro acc key e h
    exact Or.inl ⟨h, by simp [patConfsAt]⟩
  | cons r rest ih =>
    intro acc key e h
    rw [mergePattern_cons] at h
    by_cases hkey : normalizeCategory cfg r.category = key
    · rw [patConfsAt_cons, if_pos hkey]
      rcases hacc : mapGet acc (normalizeCategory cfg r.category) with _ | ex
      · rw [hacc] at h
        dsimp only at h
        rcases ih _ key e h with ⟨hget, hbound⟩ | ⟨hsrc, hmem, hbound, hdom⟩
        · rw [← hkey, mapGet_mapSet_self] at hget
          obtain rfl := Option.some.injEq _ _ ▸ hget
          refine Or.inr ⟨rfl, List.mem_cons_self _ _, ?_, ?_⟩
          · intro q hq
            rcases List.mem_cons.mp hq with rfl | hq
            · exact le_refl _
            · exact hbound q hq
          · intro e0 he0
            rw [hkey] at hacc
            rw [hacc] at he0
            cases he0
        · refine Or.inr ⟨hsrc, List.mem_cons_of_mem _ hmem, ?_, ?_⟩
          · intro q hq
            rcases List.mem_cons.mp hq with rfl | hq
            · have := hdom (c5Entry mgr rules cfg m r)
                (by rw [← hkey, mapGet_mapSet_self])
              exact le_of_lt this
            · exact hbound q hq
          · intro e0 he0
            rw [hkey] at hacc
            rw [hacc] at he0
            cases he0
      · rw [hacc] at h
        dsimp only at h
        split_ifs at h with hconf
        · rcases ih _ key e h with ⟨hget, hbound⟩ | ⟨hsrc, hmem, hbound, hdom⟩
          · rw [← hkey, mapGet_mapSet_self] at hget
            obtain rfl := Option.some.injEq _ _ ▸ hget
            refine Or.inr ⟨rfl, List.mem_cons_self _ _, ?_, ?_⟩
            · intro q hq
              rcases List.mem_cons.mp hq with rfl | hq
              · exact le_refl _
              · exact hbound q hq
            · intro e0 he0
              rw [hkey] at hacc
              rw [hacc] at he0
              obtain rfl := Option.some.injEq _ _ ▸ he0
              exact hconf
          · refine Or.inr ⟨hsrc, List.mem_cons_of_mem _ hmem, ?_, ?_⟩
            · intro q hq
              rcases List.mem_cons.mp hq with rfl | hq
              · have := hdom (c5Entry mgr rules cfg m r)
                  (by rw [← hkey, mapGet_mapSet_self])
                exact le_of_lt this
              · exact hbound q hq
            · intro e0 he0
              rw [hkey] at hacc
              rw [hacc] at he0
              obtain rfl := Option.some.injEq _ _ ▸ he0
              have := hdom (c5Entry mgr rules cfg m r)
                (by rw [← hkey, mapGet_mapSet_self])
              exact lt_trans hconf this
        · rcases ih _ key e h with ⟨hget, hbound⟩ | ⟨hsrc, hmem, hbound, hdom⟩
          · rw [hkey] at hacc
            refine Or.inl ⟨hget, ?_⟩
            intro q hq
            rcases List.mem_cons.mp hq with rfl | hq
            · rw [hacc] at hget
              obtain rfl := Option.some.injEq _ _ ▸ hget
              exact not_lt.mp hconf
            · exact hbound q hq
          · refine Or.inr ⟨hsrc, List.mem_cons_of_mem _ hmem, ?_, hdom⟩
            intro q hq
            rcases List.mem_cons.mp hq with rfl | hq
            · rw [hkey] at hacc
              have hex := hdom ex hacc
              exact le_of_lt (lt_of_le_of_lt (not_lt.mp hconf) hex)
            · exact hbound q hq
    · rw [patConfsAt_cons, if_neg hkey]
      rcases hacc : mapGet acc (normalizeCategory cfg r.category) with _ | ex
      · rw [hacc] at h
        dsimp only at h
        rcases ih _ key e h with ⟨hget, hbound⟩ | ⟨hsrc, hmem, hbound, hdom⟩
        · rw [mapGet_mapSet_ne _ _ _ _ (fun hkk => hkey hkk.symm)] at hget
          exact Or.inl ⟨hget, hbound⟩
        · refine Or.inr ⟨hsrc, hmem, hbound, ?_⟩
          intro e0 he0
          exact hdom e0
            (by rw [mapGet_mapSet_ne _ _ _ _ (fun hkk => hkey hkk.symm)]; exact he0)
      · rw [hacc] at h
        dsimp only at h
        split_ifs at h with hconf
        · rcases ih _ key e h with ⟨hget, hbound⟩ | ⟨hsrc, hmem, hbound, hdom⟩
          · rw [mapGet_mapSet_ne _ _ _ _ (fun hkk => hkey hkk.symm)] at hget
            exact Or.inl ⟨hget, hbound⟩
          · refine Or.inr ⟨hsrc, hmem, hbound, ?_⟩
            intro e0 he0
            exact hdom e0
              (by rw [mapGet_mapSet_ne _ _ _ _ (fun hkk => hkey hkk.symm)]; exact he0)
        · exact ih _ key e h

theorem patConfsAt_mem (cfg : CategoryExtractionConfig) (key : String)
    (ps : List PatternMatch) (q : ℚ) :
    q ∈ patConfsAt cfg key ps ↔
      ∃ r ∈ ps, normalizeCategory cfg r.category = key ∧ r.confidence = q := by
  simp [patConfsAt, List.mem_map, List.mem_filter, and_assoc]

/-- Claim C5.  The merged candidate map of performExtraction deduplicates
by normalized category name keeping the highest confidence: any surviving
entry's confidence is one of the candidate confidences for its key (0.9
per matching existingCategories entry, raw pattern-match confidences) and
dominates all of them; a metadata-sourced entry has confidence exactly
0.9; and when an existingCategories entry contributed to the key, a
pattern-sourced entry can only have displaced it with strictly higher
confidence. -/
theorem C5_merge_keeps_max (mgr : CategoryHierarchyManager) (eng : RegexEngine)
    (tmo : Nat → Nat → Bool) (rules : List CategoryExtractionRule)
    (cfg : CategoryExtractionConfig) (m : MemoryMetadata) (key : String)
    (e : ExtractedCategory)
    (h : mapGet (mergedCandidates mgr eng tmo rules cfg m) key = some e) :
    e.confidence ∈ c5CandidateConfs eng tmo rules cfg m key ∧
    (∀ q ∈ c5CandidateConfs eng tmo rules cfg m key, q ≤ e.confidence) ∧
    (e.source = CategorySource.metadata → e.confidence = 9/10) ∧
    (c5MetaCands cfg m key ≠ [] → e.source = CategorySource.pattern →
      9/10 < e.confidence) := by
  unfold mergedCandidates at h
  unfold c5CandidateConfs
  split_ifs at h with hpat
  · rcases mergePattern_get mgr rules cfg m _ _ key e h with
      ⟨hget, hbound⟩ | ⟨hsrc, hmem, hbound, hdom⟩
    · obtain ⟨hconf, hsrcm, hne⟩ := metadataPhase_get mgr rules cfg m key e hget
      refine ⟨?_, ?_, fun _ => hconf, ?_⟩
      · rcases hmc : c5MetaCands cfg m key with _ | ⟨c, cs⟩
        · exact absurd hmc hne
        · rw [hconf]
          apply List.mem_append_left
          exact List.mem_map.mpr ⟨c, List.mem_cons_self _ _, rfl⟩
      · intro q hq
        rcases List.mem_append.mp hq with hq | hq
        · obtain ⟨c, _, hc⟩ := List.mem_map.mp hq
          have hcq : q = 9/10 := by simpa using hc.symm
          rw [hcq, hconf]
        · unfold c5PatternConfs at hq
          rw [if_pos hpat] at hq
          obtain ⟨rq, hrq, hrqk, hrqc⟩ := (patConfsAt_mem cfg key _ q).mp hq
          obtain ⟨p, hp, hpc, hpconf⟩ := dedupFold_values_dominate _ rq hrq
          have hpm : p.confidence ∈ patConfsAt cfg key (extractFromPatterns eng tmo rules m) :=
            (patConfsAt_mem cfg key _ _).mpr ⟨p, hp, by rw [hpc]; exact hrqk, rfl⟩
          rw [← hrqc]
          exact le_trans hpconf (hbound _ hpm)
      · intro _ hps
        rw [hsrcm] at hps
        simp at hps
    · refine ⟨?_, ?_, ?_, ?_⟩
      · apply List.mem_append_right
        unfold c5PatternConfs
        rw [if_pos hpat]
        obtain ⟨p, hp, hpk, hpc⟩ := (patConfsAt_mem cfg key _ _).mp hmem
        have hpraw : p ∈ rawPatternResults eng tmo rules m := by
          rcases dedupFold_snd_mem (rawPatternResults eng tmo rules m) [] p hp with
            habs | hraw
          · simp at habs
          · exact hraw
        exact (patConfsAt_mem cfg key _ _).mpr ⟨p, hpraw, hpk, hpc⟩
      · intro q hq
        rcases List.mem_append.mp hq with hq | hq
        · obtain ⟨c, hc, hcq⟩ := List.mem_map.mp hq
          have hne : c5MetaCands cfg m key ≠ [] := by
            intro h0
            rw [h0] at hc
            simp at hc
          obtain ⟨e0, he0, he0c, _⟩ := metadataPhase_get_some mgr rules cfg m key hne
          have hlt := hdom e0 he0
          have hq910 : q = 9/10 := by simpa using hcq.symm
          rw [hq910, ← he0c]
          exact le_of_lt hlt
        · unfold c5PatternConfs at hq
          rw [if_pos hpat] at hq
          obtain ⟨rq, hrq, hrqk, hrqc⟩ := (patConfsAt_mem cfg key _ q).mp hq
          obtain ⟨p, hp, hpc, hpconf⟩ := dedupFold_values_dominate _ rq hrq
          have hpm : p.confidence ∈ patConfsAt cfg key (extractFromPatterns eng tmo rules m) :=
            (patConfsAt_mem cfg key _ _).mpr ⟨p, hp, by rw [hpc]; exact hrqk, rfl⟩
          rw [← hrqc]
          exact le_trans hpconf (hbound _ hpm)
      · intro hmeta
        rw [hsrc] at hmeta
        simp at hmeta
      · intro hne _
        obtain ⟨e0, he0, he0c, _⟩ := metadataPhase_get_some mgr rules cfg m key hne
        have hlt := hdom e0 he0
        rw [he0c] at hlt
        exact hlt
  · obtain ⟨hconf, hsrcm, hne⟩ := metadataPhase_get mgr rules cfg m key e h
    refine ⟨?_, ?_, fun _ => hconf, ?_⟩
    · rcases hmc : c5MetaCands cfg m key with _ | ⟨c, cs⟩
      · exact absurd hmc hne
      · rw [hconf]
        apply List.mem_append_left
        exact List.mem_map.mpr ⟨c, List.mem_cons_self _ _, rfl⟩
    · intro q hq
      rcases List.mem_append.mp hq with hq | hq
      · obtain ⟨c, _, hc⟩ := List.mem_map.mp hq
        have hcq : q = 9/10 := by simpa using hc.symm
        rw [hcq, hconf]
      · unfold c5PatternConfs at hq
        rw [if_neg hpat] at hq
        simp at hq
    · intro _ hps
      rw [hsrcm] at hps
      simp at hps

def engW5 : RegexEngine := fun _ _ _ _ => none

def tmoW5 : Nat → Nat → Bool := fun _ _ => false

def mW5 : MemoryMetadata := { content := "hello", existingCategories := some ["Work"] }

def keyW5 : String := normalizeCategory defaultConfig "Work"

def eW5 : ExtractedCategory :=
  { name := "Work"
    hierarchyPath := (resolveCategoryHierarchy mgr0 [] defaultConfig "Work").map
      CategoryNode.fullPath
    confidence := 9/10
    source := .metadata
    normalizedName := normalizeCategory defaultConfig "Work"
    relevanceScore := calculateHierarchicalRelevanceScore "Work"
      (resolveCategoryHierarchy mgr0 [] defaultConfig "Work") mW5 }

/-- Witness for C5 at a concrete input: the default configuration with no
rules and existingCategories = [Work] yields the 0.9 metadata entry at key
normalizeCategory(Work), and the conclusion of C5_merge_keeps_max holds
for it. -/
theorem C5_merge_keeps_max_witness :
    mapGet (mergedCandidates mgr0 engW5 tmoW5 [] defaultConfig mW5) keyW5 = some eW5 ∧
    (eW5.confidence ∈ c5CandidateConfs engW5 tmoW5 [] defaultConfig mW5 keyW5 ∧
      (∀ q ∈ c5CandidateConfs engW5 tmoW5 [] defaultConfig mW5 keyW5,
        q ≤ eW5.confidence) ∧
      (eW5.source = CategorySource.metadata → eW5.confidence = 9/10) ∧
      (c5MetaCands defaultConfig mW5 keyW5 ≠ [] →
        eW5.source = CategorySource.pattern → 9/10 < eW5.confidence)) :=
  ⟨rfl, C5_merge_keeps_max mgr0 engW5 tmoW5 [] defaultConfig mW5 keyW5 eW5 rfl⟩

/-! ## Claim C3: the cache key versus hierarchy state -/

/-- A character JSON.stringify renders as itself: printable ASCII other
than the quote and the backslash. -/
def plainJsonChar (c : Char) : Bool :=
  decide (32 ≤ c.toNat) && decide (c.toNat < 128) &&
    decide (c ≠ '"') && decide (c ≠ '\\')

theorem plainJsonChar_spec (c : Char) (h : plainJsonChar c = true) :
    32 ≤ c.toNat ∧ c.toNat < 128 ∧ c ≠ '"' ∧ c ≠ '\\' := by
  unfold plainJsonChar at h
  simp only [Bool.and_eq_true, decide_eq_true_eq] at h
  exact ⟨h.1.1.1, h.1.1.2, h.1.2, h.2⟩

theorem jsonEscapeChar_plain (c : Char) (h : plainJsonChar c = true) :
    jsonEscapeChar c = [c] := by
  obtain ⟨hge, _, hq, hb⟩ := plainJsonChar_spec c h
  have h8 : c ≠ '\x08' := fun hc => by subst hc; exact absurd hge (by decide)
  have hf : c ≠ '\x0c' := fun hc => by subst hc; exact absurd hge (by decide)
  have hn : c ≠ '\n' := fun hc => by subst hc; exact absurd hge (by decide)
  have hr : c ≠ '\r' := fun hc => by subst hc; exact absurd hge (by decide)
  have ht : c ≠ '\t' := fun hc => by subst hc; exact absurd hge (by decide)
  have hlt : ¬ c.toNat < 32 := by omega
  unfold jsonEscapeChar
  rw [if_neg hq, if_neg hb, if_neg h8, if_neg hf, if_neg hn, if_neg hr,
    if_neg ht, if_neg hlt]

theorem flatten_escape_plain :
    ∀ (l : List Char), (∀ c ∈ l, plainJsonChar c = true) →
      (l.map jsonEscapeChar).flatten = l := by
  intro l
  induction l with
  | nil => intro _; rfl
  | cons c rest ih =>
    intro h
    simp only [List.map_cons, List.flatten_cons,
      jsonEscapeChar_plain c (h c (List.mem_cons_self _ _)),
      ih (fun x hx => h x (List.mem_cons_of_mem _ hx))]
    rfl

theorem utf8Encode_append (l1 l2 : List Char) :
    utf8Encode (l1 ++ l2) = utf8Encode l1 ++ utf8Encode l2 := by
  simp [utf8Encode]

theorem utf8Encode_ascii :
    ∀ (l : List Char), (∀ c ∈ l, c.toNat < 128) →
      utf8Encode l = l.map Char.toNat := by
  intro l
  induction l with
  | nil => intro _; rfl
  | cons c rest ih =>
    intro h
    have hc : utf8EncodeChar c = [c.toNat] := by
      unfold utf8EncodeChar
      rw [if_pos (h c (List.mem_cons_self _ _))]
    simp only [utf8Encode, List.map_cons, List.flatten_cons] at *
    rw [hc, ih (fun x hx => h x (List.mem_cons_of_mem _ hx))]
    rfl

theorem base64Encode_append :
    ∀ (k : Nat) (a rest : List Nat), a.length = 3*k →
      base64Encode (a ++ rest) = base64Encode a ++ base64Encode rest := by
  intro k
  induction k with
  | zero =>
    intro a rest h
    have ha : a = [] := List.length_eq_zero.mp (by omega)
    subst ha
    rfl
  | succ k ih =>
    intro a rest h
    rcases a with _ | ⟨x, _ | ⟨y, _ | ⟨z, a'⟩⟩⟩
    · simp only [List.length_nil] at h; omega
    · simp only [List.length_cons, List.length_nil] at h; omega
    · simp only [List.length_cons, List.length_nil] at h; omega
    · simp only [List.length_cons] at h
      have ha' : a'.length = 3*k := by omega
      simp only [List.cons_append, base64Encode]
      rw [show List.append a' rest = a' ++ rest from rfl, ih a' rest ha']

theorem base64Encode_length :
    ∀ (k : Nat) (a : List Nat), a.length = 3*k →
      (base64Encode a).length = 4*k := by
  intro k
  induction k with
  | zero =>
    intro a h
    have ha : a = [] := List.length_eq_zero.mp (by omega)
    subst ha
    rfl
  | succ k ih =>
    intro a h
    rcases a with _ | ⟨x, _ | ⟨y, _ | ⟨z, a'⟩⟩⟩
    · simp only [List.length_nil] at h; omega
    · simp only [List.length_cons, List.length_nil] at h; omega
    · simp only [List.length_cons, List.length_nil] at h; omega
    · simp only [List.length_cons] at h
      have ha' : a'.length = 3*k := by omega
      simp only [base64Encode, List.length_cons]
      rw [ih a' ha']
      omega

theorem commaJoin_cons (x : List Char) (rest : List (List Char))
    (h : rest ≠ []) :
    commaJoin (x :: rest) = x ++ ',' :: commaJoin rest := by
  cases rest with
  | nil => exact absurd rfl h
  | cons y ys => rfl

/-- The first 24 characters of the cache-key JSON when the content starts
with 12 plain characters: they depend only on the content, never on the
hierarchy. -/
def c3pre (m : MemoryMetadata) : List Char :=
  '\x7b' :: ("\"content\":").toList ++ '"' :: m.content.toList.take 12

/-- The cache key ignores the hierarchy state entirely whenever the
content has at least 12 leading plain characters: the 32 kept base64
characters encode exactly the first 24 JSON bytes, which are
`\x7b"content":"` followed by the first 12 content characters. -/
theorem generateCacheKey_ignores_hierarchy (m : MemoryMetadata)
    (h12 : 12 ≤ m.content.toList.length)
    (hplain : ∀ c ∈ m.content.toList.take 12, plainJsonChar c = true)
    (mgr1 mgr2 : CategoryHierarchyManager) :
    generateCacheKey mgr1 m = generateCacheKey mgr2 m := by
  have hsplit100 : m.content.toList.take 100 =
      m.content.toList.take 12 ++ (m.content.toList.drop 12).take 88 := by
    rw [show (100:Nat) = 12 + 88 from rfl, List.take_add]
  have hjs : jsonString (stringTake m.content 100) =
      ('"' :: m.content.toList.take 12) ++
        ((((m.content.toList.drop 12).take 88).map jsonEscapeChar).flatten ++ ['"']) := by
    unfold jsonString stringTake
    rw [string_mk_toList, hsplit100, List.map_append, List.flatten_append,
      flatten_escape_plain _ hplain]
    simp
  have hA : ∀ mgr : CategoryHierarchyManager, generateCacheKey mgr m =
      String.mk (base64Encode ((c3pre m).map Char.toNat)) := by
    intro mgr
    obtain ⟨t, ht⟩ : ∃ t, cacheKeyJson mgr m = c3pre m ++ t := by
      apply Exists.intro
      unfold cacheKeyJson
      dsimp only
      rw [commaJoin_cons _ _ (by simp), hjs]
      simp only [c3pre, List.cons_append, List.append_assoc]
      rfl
    have hpre_ascii : ∀ c ∈ c3pre m, c.toNat < 128 := by
      intro c hc
      simp only [c3pre, List.cons_append, List.mem_cons, List.mem_append] at hc
      rcases hc with rfl | hc | rfl | hc
      · decide
      · have hall : ∀ x ∈ ("\"content\":").toList, x.toNat < 128 := by decide
        exact hall c hc
      · decide
      · exact (plainJsonChar_spec c (hplain c hc)).2.1
    have h10 : (("\"content\":").toList).length = 10 := rfl
    have hlen : ((c3pre m).map Char.toNat).length = 3*8 := by
      simp only [c3pre, List.length_map, List.cons_append, List.length_cons,
        List.length_append, List.length_take, h10]
      omega
    have h32 : (base64Encode ((c3pre m).map Char.toNat)).length = 32 := by
      rw [base64Encode_length 8 _ hlen]
    unfold generateCacheKey
    rw [ht, utf8Encode_append, utf8Encode_ascii _ hpre_ascii,
      base64Encode_append 8 _ _ hlen, List.take_left' h32]
  rw [hA mgr1, hA mgr2]

/-- With expansion, suggestion and validation disabled, the returned
categories are exactly the sorted, thresholded, truncated merged
candidates. -/
theorem performExtraction_plain_categories (mgr : CategoryHierarchyManager)
    (eng : RegexEngine) (tmo : Nat → Nat → Bool)
    (rules : List CategoryExtractionRule) (cfg : CategoryExtractionConfig)
    (m : MemoryMetadata)
    (hexp : cfg.enableHierarchicalExpansion = false)
    (hsug : cfg.enableCategorySuggestions = false)
    (hval : cfg.enableHierarchyValidation = false) :
    (performExtraction mgr eng tmo rules cfg m).categories =
      ((sortByConfDesc ((mergedCandidates mgr eng tmo rules cfg m).map Prod.snd)).filter
        fun cat => cfg.confidenceThreshold ≤ cat.confidence).take
        cfg.maxCategoriesPerMemory := by
  unfold performExtraction
  rw [hexp, hsug, hval]
  simp

/-- Claim C3, amended.  The cache key is the first 32 base64 characters
of the keyData JSON, i.e. exactly its first 24 bytes; whenever the
content starts with 12 plain characters those bytes are
`\x7b"content":"` plus the first 12 content characters, so the key is
identical across all hierarchy states, and extractCategories (with
normalization enabled) then serves the cached result computed under the
previous hierarchy state unchanged. -/
theorem C3_stale_serve_amended (mgr1 mgr2 : CategoryHierarchyManager)
    (eng : RegexEngine) (tmo : Nat → Nat → Bool)
    (rules : List CategoryExtractionRule) (cfg : CategoryExtractionConfig)
    (m : MemoryMetadata)
    (hnorm : cfg.enableCategoryNormalization = true)
    (h12 : 12 ≤ m.content.toList.length)
    (hplain : ∀ c ∈ m.content.toList.take 12, plainJsonChar c = true) :
    extractCategoriesCached mgr2 eng tmo rules cfg
        (extractCategoriesCached mgr1 eng tmo rules cfg [] m).2 m =
      ((extractCategoriesCached mgr1 eng tmo rules cfg [] m).1,
       (extractCategoriesCached mgr1 eng tmo rules cfg [] m).2) := by
  have hkey := generateCacheKey_ignores_hierarchy m h12 hplain mgr2 mgr1
  have h1 : extractCategoriesCached mgr1 eng tmo rules cfg [] m =
      (performExtraction mgr1 eng tmo rules cfg m,
       mapSet [] (generateCacheKey mgr1 m) (performExtraction mgr1 eng tmo rules cfg m)) := by
    unfold extractCategoriesCached
    dsimp only
    simp only [mapGet]
    rw [hnorm]
    simp
  rw [h1]
  unfold extractCategoriesCached
  dsimp only
  rw [hkey, mapGet_mapSet_self, hnorm]

def c3m : MemoryMetadata :=
  { content := "abcdefghijkl", existingCategories := some ["Work"] }

def c3node1 : CategoryNode := CategoryNode.mk "work" "Work" none [] 1 "Projects/Work"

def c3node2 : CategoryNode := CategoryNode.mk "work" "Work" none [] 2 "Teams/Work"

def c3mgr1 : CategoryHierarchyManager :=
  { getNode := fun n => if n = "Work" then some c3node1 else none
    getAllNodes := [c3node1]
    getAncestors := fun _ => [] }

def c3mgr2 : CategoryHierarchyManager :=
  { getNode := fun n => if n = "Work" then some c3node2 else none
    getAllNodes := [c3node2]
    getAncestors := fun _ => [] }

def c3eng : RegexEngine := fun _ _ _ _ => none

def c3tmo : Nat → Nat → Bool := fun _ _ => false

/-- The metadata entry the extractor produces for Work under the first
hierarchy state. -/
def c3e1 : ExtractedCategory :=
  { name := "Work"
    hierarchyPath := some "Projects/Work"
    confidence := 9/10
    source := .metadata
    normalizedName := normalizeCategory defaultConfig "Work"
    relevanceScore := calculateHierarchicalRelevanceScore "Work"
      (resolveCategoryHierarchy c3mgr1 [] defaultConfig "Work") c3m }

/-- The metadata entry the extractor produces for Work under the second
hierarchy state. -/
def c3e2 : ExtractedCategory :=
  { name := "Work"
    hierarchyPath := some "Teams/Work"
    confidence := 9/10
    source := .metadata
    normalizedName := normalizeCategory defaultConfig "Work"
    relevanceScore := calculateHierarchicalRelevanceScore "Work"
      (resolveCategoryHierarchy c3mgr2 [] defaultConfig "Work") c3m }

theorem c3_categories_mgr1 :
    (performExtraction c3mgr1 c3eng c3tmo [] defaultConfig c3m).categories = [c3e1] := by
  rw [performExtraction_plain_categories c3mgr1 c3eng c3tmo [] defaultConfig c3m
    rfl rfl rfl]
  rw [show ((mergedCandidates c3mgr1 c3eng c3tmo [] defaultConfig c3m).map Prod.snd) =
    [c3e1] from rfl]
  rw [show sortByConfDesc [c3e1] = [c3e1] from rfl]
  have hth : defaultConfig.confidenceThreshold ≤ c3e1.confidence := by
    show (1:ℚ)/2 ≤ 9/10
    norm_num
  rw [List.filter_cons, if_pos (decide_eq_true hth)]
  rfl

theorem c3_categories_mgr2 :
    (performExtraction c3mgr2 c3eng c3tmo [] defaultConfig c3m).categories = [c3e2] := by
  rw [performExtraction_plain_categories c3mgr2 c3eng c3tmo [] defaultConfig c3m
    rfl rfl rfl]
  rw [show ((mergedCandidates c3mgr2 c3eng c3tmo [] defaultConfig c3m).map Prod.snd) =
    [c3e2] from rfl]
  rw [show sortByConfDesc [c3e2] = [c3e2] from rfl]
  have hth : defaultConfig.confidenceThreshold ≤ c3e2.confidence := by
    show (1:ℚ)/2 ≤ 9/10
    norm_num
  rw [List.filter_cons, if_pos (decide_eq_true hth)]
  rfl

/-- Claim C3 counterexample.  Two distinct hierarchy states (Work filed
under Projects, depth 1, versus Teams, depth 2 — distinct version sums 5
and 6) produce the same cache key for a 12-character content, because the
32 kept base64 characters cover only the first 24 JSON bytes; the second
call then serves the cached result whose hierarchyPath was resolved
against the old hierarchy, which differs from a fresh extraction under
the new hierarchy. -/
theorem C3_stale_cache_counterexample :
    c3mgr1.getAllNodes ≠ c3mgr2.getAllNodes ∧
    getHierarchyVersion c3mgr1 ≠ getHierarchyVersion c3mgr2 ∧
    generateCacheKey c3mgr1 c3m = generateCacheKey c3mgr2 c3m ∧
    (extractCategoriesCached c3mgr2 c3eng c3tmo [] defaultConfig
        (extractCategoriesCached c3mgr1 c3eng c3tmo [] defaultConfig [] c3m).2 c3m).1 =
      performExtraction c3mgr1 c3eng c3tmo [] defaultConfig c3m ∧
    (performExtraction c3mgr1 c3eng c3tmo [] defaultConfig c3m).categories.map
      ExtractedCategory.hierarchyPath = [some "Projects/Work"] ∧
    (performExtraction c3mgr2 c3eng c3tmo [] defaultConfig c3m).categories.map
      ExtractedCategory.hierarchyPath = [some "Teams/Work"] ∧
    performExtraction c3mgr1 c3eng c3tmo [] defaultConfig c3m ≠
      performExtraction c3mgr2 c3eng c3tmo [] defaultConfig c3m := by
  have hp1 : (performExtraction c3mgr1 c3eng c3tmo [] defaultConfig c3m).categories.map
      ExtractedCategory.hierarchyPath = [some "Projects/Work"] := by
    rw [c3_categories_mgr1]
    rfl
  have hp2 : (performExtraction c3mgr2 c3eng c3tmo [] defaultConfig c3m).categories.map
      ExtractedCategory.hierarchyPath = [some "Teams/Work"] := by
    rw [c3_categories_mgr2]
    rfl
  refine ⟨?_, by decide, by decide, rfl, hp1, hp2, ?_⟩
  · intro h
    simp [c3mgr1, c3mgr2, c3node1, c3node2] at h
  · intro h
    rw [h, hp2] at hp1
    exact absurd hp1 (by decide)

/-- Witness for the amended C3 theorem at a concrete input: a plain
12-character content, normalization enabled, and the two distinct
hierarchy states of the counterexample. -/
theorem C3_stale_serve_amended_witness :
    defaultConfig.enableCategoryNormalization = true ∧
    12 ≤ c3m.content.toList.length ∧
    (∀ c ∈ c3m.content.toList.take 12, plainJsonChar c = true) ∧
    extractCategoriesCached c3mgr2 c3eng c3tmo [] defaultConfig
        (extractCategoriesCached c3mgr1 c3eng c3tmo [] defaultConfig [] c3m).2 c3m =
      ((extractCategoriesCached c3mgr1 c3eng c3tmo [] defaultConfig [] c3m).1,
       (extractCategoriesCached c3mgr1 c3eng c3tmo [] defaultConfig [] c3m).2) :=
  ⟨rfl, by decide, by decide,
    C3_stale_serve_amended c3mgr1 c3mgr2 c3eng c3tmo [] defaultConfig c3m rfl
      (by decide) (by decide)⟩

theorem c9_categories :
    (performExtraction mgr0 c9eng c9tmo [] defaultConfig c9m).categories = [c9e] := by
  rw [performExtraction_plain_categories mgr0 c9eng c9tmo [] defaultConfig c9m
    rfl rfl rfl]
  rw [show ((mergedCandidates mgr0 c9eng c9tmo [] defaultConfig c9m).map Prod.snd) =
    [c9e] from rfl]
  rw [show sortByConfDesc [c9e] = [c9e] from rfl]
  have hth : defaultConfig.confidenceThreshold ≤ c9e.confidence := by
    show (1:ℚ)/2 ≤ 9/10
    norm_num
  rw [List.filter_cons, if_pos (decide_eq_true hth)]
  rfl

/-- Witness for C9 at a concrete configuration without rules: the single
extracted category has both scores inside the unit interval. -/
theorem C9_scores_in_unit_interval_witness :
    c9e ∈ (performExtraction mgr0 c9eng c9tmo [] defaultConfig c9m).categories ∧
    (0 ≤ c9e.confidence ∧ c9e.confidence ≤ 1 ∧
      0 ≤ c9e.relevanceScore ∧ c9e.relevanceScore ≤ 1) :=
  ⟨by rw [c9_categories]; exact List.mem_singleton.mpr rfl,
   (C9_scores_in_unit_interval mgr0 c9eng c9tmo [] defaultConfig c9m (by simp)).1 c9e
     (by rw [c9_categories]; exact List.mem_singleton.mpr rfl)⟩

/-- Witness for C10 at a concrete prefix, clock value and UUID. -/
theorem C10_id_round_trip_witness :
    extractTimestampFromId
      (generatePrefixedId "memory" 1700000000000
        "123e4567-e89b-42d3-a456-426614174000") = some 1700000000000 ∧
    extractTimestampFromId (generateId "123e4567-e89b-42d3-a456-426614174000") = none := by
  have h := C10_id_round_trip "memory" 1700000000000
    "123e4567-e89b-42d3-a456-426614174000"
    (by decide) (by decide) (by norm_num) (by norm_num)
  exact ⟨h.1, h.2.1⟩

end Memori
